import Mathlib

/-!
Verification of the Omni cross-chain settlement and gas-exchange core against
its natural-language specification.

The development shallowly embeds:
* `contracts/core/src/token/OmniXFund.sol` — the idempotent cumulative
  settlement ledger (`tryWithdrawRemaining`, `authorize`, `pause`, `unpause`);
* `contracts/core/src/token/OmniGasExchange.sol` — the ETH→OMNI swap engine
  (`swap`, `simSwap`, `swapFee`, `ethNeededFor`, admin setters);
* `lib/netconf/netconf.go` — the `Chain` JSON (de)serialization, together with
  faithful models of the Go standard-library `time.Duration` formatter/parser
  and go-ethereum's best-effort hex address codec that it calls.

Solidity `uint256` arithmetic is modelled on `Nat` with explicit bound checks
mirroring Solidity 0.8 checked arithmetic (an out-of-range operation reverts);
a revert is an `Except.error`, so an errored call leaves no post-state.
External calls (the value transfer in `tryWithdrawRemaining`, the fee oracle,
the conversion-rate oracle) are modelled as explicit parameters, as they are
external collaborators of the embedded code.
-/

/-! ## Checked uint256 arithmetic (Solidity 0.8 semantics) -/

/-- Largest value of a Solidity `uint256`. -/
def UMAX : Nat := 2 ^ 256 - 1

/-- Checked `uint256` addition: reverts (panic 0x11) on overflow. -/
def uadd (a b : Nat) : Except String Nat :=
  if a + b ≤ UMAX then .ok (a + b) else .error "overflow"

/-- Checked `uint256` subtraction: reverts (panic 0x11) on underflow. -/
def usub (a b : Nat) : Except String Nat :=
  if b ≤ a then .ok (a - b) else .error "underflow"

/-- Checked `uint256` multiplication: reverts (panic 0x11) on overflow. -/
def umul (a b : Nat) : Except String Nat :=
  if a * b ≤ UMAX then .ok (a * b) else .error "overflow"

/-- Checked `uint256` division: reverts (panic 0x12) on a zero divisor.
Solidity `/` truncates (floor), as does `Nat` division. -/
def udiv (a b : Nat) : Except String Nat :=
  if b = 0 then .error "division by zero" else .ok (a / b)

/-! ## OmniXFund (`contracts/core/src/token/OmniXFund.sol`)

Addresses and chain ids are modelled as `Nat`.  The two storage mappings
`authed` and `funded` are total functions, zero/false-initialised like EVM
storage.  The `xrecv` modifier's message context (`xmsg.sourceChainId`,
`xmsg.sender`, `isXCall()`) is an explicit argument, and the low-level value
transfer `recipient.call{value: amt}("")` is an external call whose outcome is
the explicit argument `transferOk`. -/

/-- Cross-chain message context made available by the `xrecv` modifier. -/
structure XMsgCtx where
  sourceChainId : Nat
  sender : Nat
  isXCall : Bool

/-- Storage of the `OmniXFund` contract (plus the `PausableUpgradeable` and
`OwnableUpgradeable` slots it inherits). -/
structure FundState where
  /-- Map chainID to addr to true, if authorized to withdraw. -/
  authed : Nat → Nat → Bool
  /-- Map address to chainID to total funded. -/
  funded : Nat → Nat → Nat
  /-- `PausableUpgradeable` paused flag. -/
  paused : Bool
  /-- `OwnableUpgradeable` owner. -/
  owner : Nat

/-- Amount still owed, as computed at line 45 of `OmniXFund.sol`:
`total - funded[recipient][xmsg.sourceChainId]` (Nat subtraction agrees with
the checked Solidity subtraction because the code first requires
`total >= funded[recipient][xmsg.sourceChainId]`). -/
def owedAmt (s : FundState) (recipient srcChainId total : Nat) : Nat :=
  total - s.funded recipient srcChainId

/-- `OmniXFund.tryWithdrawRemaining`, lines 39–57.  NOTE: the source carries
the OpenZeppelin `whenPaused` modifier (revert `ExpectedPause()` when the
contract is NOT paused), so the body only executes while the contract is
paused; this is embedded exactly as written. -/
def tryWithdrawRemaining (s : FundState) (ctx : XMsgCtx)
    (recipient total : Nat) (transferOk : Bool) : Except String FundState :=
  if s.paused = false then .error "ExpectedPause" else
  if ¬ (ctx.isXCall = true ∧ s.authed ctx.sourceChainId ctx.sender = true) then
    .error "OmniFund: unauthorized"
  else if total < s.funded recipient ctx.sourceChainId then
    .error "OmniFund: already funded"
  else
    let amt := total - s.funded recipient ctx.sourceChainId
    -- (bool success,) = recipient.call{ value: amt }("");  -- external call
    if transferOk then
      .ok { s with funded := fun r c =>
        if r = recipient ∧ c = ctx.sourceChainId then s.funded r c + amt
        else s.funded r c }
    else
      .ok s

/-- `OmniXFund.authorize`, lines 59–61 (`onlyOwner`). -/
def fundAuthorize (s : FundState) (msgSender chainID addr : Nat) :
    Except String FundState :=
  if msgSender ≠ s.owner then .error "OwnableUnauthorizedAccount" else
  .ok { s with authed := fun c a =>
    if c = chainID ∧ a = addr then true else s.authed c a }

/-- `OmniXFund.pause`, lines 63–65 (`onlyOwner`; OpenZeppelin `_pause` has a
`whenNotPaused` guard). -/
def fundPause (s : FundState) (msgSender : Nat) : Except String FundState :=
  if msgSender ≠ s.owner then .error "OwnableUnauthorizedAccount" else
  if s.paused = true then .error "EnforcedPause" else
  .ok { s with paused := true }

/-- `OmniXFund.unpause`, lines 67–69 (`onlyOwner`; OpenZeppelin `_unpause` has
a `whenPaused` guard). -/
def fundUnpause (s : FundState) (msgSender : Nat) : Except String FundState :=
  if msgSender ≠ s.owner then .error "OwnableUnauthorizedAccount" else
  if s.paused = false then .error "ExpectedPause" else
  .ok { s with paused := false }

/-- `OwnableUpgradeable.transferOwnership` inherited by `OmniXFund`. -/
def fundTransferOwnership (s : FundState) (msgSender newOwner : Nat) :
    Except String FundState :=
  if msgSender ≠ s.owner then .error "OwnableUnauthorizedAccount" else
  if newOwner = 0 then .error "OwnableInvalidOwner" else
  .ok { s with owner := newOwner }

/-- `OwnableUpgradeable.renounceOwnership` inherited by `OmniXFund`. -/
def fundRenounceOwnership (s : FundState) (msgSender : Nat) :
    Except String FundState :=
  if msgSender ≠ s.owner then .error "OwnableUnauthorizedAccount" else
  .ok { s with owner := 0 }

/-- One public operation of the deployed `OmniXFund` contract. -/
inductive FundOp where
  | tryWithdrawRemaining (ctx : XMsgCtx) (recipient total : Nat)
      (transferOk : Bool)
  | authorize (msgSender chainID addr : Nat)
  | pause (msgSender : Nat)
  | unpause (msgSender : Nat)
  | transferOwnership (msgSender newOwner : Nat)
  | renounceOwnership (msgSender : Nat)
  /-- the plain-ETH `receive()` function, line 71 -/
  | receiveEth

/-- Dispatch one public operation of `OmniXFund`. -/
def fundStep (s : FundState) : FundOp → Except String FundState
  | .tryWithdrawRemaining ctx r total ok_ => tryWithdrawRemaining s ctx r total ok_
  | .authorize ms c a => fundAuthorize s ms c a
  | .pause ms => fundPause s ms
  | .unpause ms => fundUnpause s ms
  | .transferOwnership ms n => fundTransferOwnership s ms n
  | .renounceOwnership ms => fundRenounceOwnership s ms
  | .receiveEth => .ok s

/-! ### Claims C1–C3 and C10 (settlement fund) -/

/-- Example authorized message context: source chain 1, sender address 2. -/
def ctxAuthed : XMsgCtx := { sourceChainId := 1, sender := 2, isXCall := true }

/-- Fund state that authorizes `(chain 1, sender 2)`, with the pause flag a
parameter and an empty ledger. -/
def fundDemoState (paused : Bool) : FundState :=
  { authed := fun c a => c == 1 && a == 2
    funded := fun _ _ => 0
    paused := paused
    owner := 9 }

/-- Claim C1 (code_bug evaluation): `tryWithdrawRemaining` carries the
OpenZeppelin `whenPaused` modifier, so a settlement request from an authorized
sender is ACCEPTED (and pays out) precisely while the contract is paused, and
is rejected with `ExpectedPause` when the contract is not paused — the exact
inverse of the specified operational guard. -/
theorem c1_pause_guard_inverted :
    (∃ s', tryWithdrawRemaining (fundDemoState true) ctxAuthed 5 100 true = .ok s'
      ∧ s'.funded 5 1 = 100)
    ∧ tryWithdrawRemaining (fundDemoState false) ctxAuthed 5 100 true
        = .error "ExpectedPause" := by
  exact ⟨⟨_, rfl, rfl⟩, rfl⟩

/-- Unfolding lemma: a settlement request reverts with `ExpectedPause` while
the contract is NOT paused (the `whenPaused` modifier). -/
theorem twr_not_paused (s : FundState) (ctx : XMsgCtx) (r total : Nat)
    (tok : Bool) (hp : s.paused = false) :
    tryWithdrawRemaining s ctx r total tok = .error "ExpectedPause" := by
  simp [tryWithdrawRemaining, hp]

/-- Unfolding lemma: an unauthorized request reverts. -/
theorem twr_unauthorized (s : FundState) (ctx : XMsgCtx) (r total : Nat)
    (tok : Bool) (hp : s.paused = true)
    (hA : ¬ (ctx.isXCall = true ∧ s.authed ctx.sourceChainId ctx.sender = true)) :
    tryWithdrawRemaining s ctx r total tok = .error "OmniFund: unauthorized" := by
  simp [tryWithdrawRemaining, hp, hA]

/-- Unfolding lemma: a rewinding request (line 43's require) reverts. -/
theorem twr_rewind (s : FundState) (ctx : XMsgCtx) (r total : Nat)
    (tok : Bool) (hp : s.paused = true)
    (hA : ctx.isXCall = true ∧ s.authed ctx.sourceChainId ctx.sender = true)
    (hlt : total < s.funded r ctx.sourceChainId) :
    tryWithdrawRemaining s ctx r total tok = .error "OmniFund: already funded" := by
  simp [tryWithdrawRemaining, hp, hA.1, hA.2, hlt]

/-- Unfolding lemma: when the guards pass but the value transfer fails, the
call returns with the state unchanged. -/
theorem twr_transfer_failed (s : FundState) (ctx : XMsgCtx) (r total : Nat)
    (hp : s.paused = true)
    (hA : ctx.isXCall = true ∧ s.authed ctx.sourceChainId ctx.sender = true)
    (hge : s.funded r ctx.sourceChainId ≤ total) :
    tryWithdrawRemaining s ctx r total false = .ok s := by
  simp [tryWithdrawRemaining, hp, hA.1, hA.2, Nat.not_lt.mpr hge]

/-- Unfolding lemma: when the guards pass and the value transfer succeeds,
`funded[r][src]` is bumped by the computed delta. -/
theorem twr_transfer_ok (s : FundState) (ctx : XMsgCtx) (r total : Nat)
    (hp : s.paused = true)
    (hA : ctx.isXCall = true ∧ s.authed ctx.sourceChainId ctx.sender = true)
    (hge : s.funded r ctx.sourceChainId ≤ total) :
    tryWithdrawRemaining s ctx r total true = .ok { s with
      funded := fun r' c' =>
        if r' = r ∧ c' = ctx.sourceChainId then
          s.funded r' c' + (total - s.funded r ctx.sourceChainId)
        else s.funded r' c' } := by
  simp [tryWithdrawRemaining, hp, hA.1, hA.2, Nat.not_lt.mpr hge]

/-- Claim C2: a settlement request from an authorized sender whose `total` is
strictly below the already-funded amount is always rejected (the call reverts,
so no ledger entry changes). -/
theorem c2_rewind_rejected (s : FundState) (ctx : XMsgCtx)
    (recipient total : Nat) (transferOk : Bool)
    (hlt : total < s.funded recipient ctx.sourceChainId) :
    ∃ e, tryWithdrawRemaining s ctx recipient total transferOk = .error e := by
  cases hp : s.paused with
  | false => exact ⟨_, twr_not_paused s ctx recipient total transferOk hp⟩
  | true =>
    by_cases hA : ctx.isXCall = true ∧ s.authed ctx.sourceChainId ctx.sender = true
    · exact ⟨_, twr_rewind s ctx recipient total transferOk hp hA hlt⟩
    · exact ⟨_, twr_unauthorized s ctx recipient total transferOk hp hA⟩

/-- Claim C2 witness: a paused, authorized state with `funded[5][1] = 50`
rejects a request with `total = 30`. -/
def fundRewindState : FundState :=
  { authed := fun c a => c == 1 && a == 2
    funded := fun r c => if r = 5 ∧ c = 1 then 50 else 0
    paused := true
    owner := 9 }

theorem c2_rewind_rejected_witness :
    30 < fundRewindState.funded 5 1
    ∧ ∃ e, tryWithdrawRemaining fundRewindState ctxAuthed 5 30 true = .error e :=
  ⟨by decide, c2_rewind_rejected fundRewindState ctxAuthed 5 30 true (by decide)⟩

/-- Claim C3: for a request with `total ≥ funded[recipient][src]`: if the value
transfer fails the ledger is unchanged and an immediate retry with the same
`total` computes the same outstanding delta; when the transfer succeeds,
`funded[recipient][src]` is incremented by exactly that delta and every other
ledger entry is unchanged. -/
theorem c3_retry_safe (s : FundState) (ctx : XMsgCtx) (recipient total : Nat)
    (hge : s.funded recipient ctx.sourceChainId ≤ total) :
    (∀ s', tryWithdrawRemaining s ctx recipient total false = .ok s' →
      s' = s ∧ owedAmt s' recipient ctx.sourceChainId total
        = owedAmt s recipient ctx.sourceChainId total)
    ∧ (∀ s', tryWithdrawRemaining s ctx recipient total true = .ok s' →
      s'.funded recipient ctx.sourceChainId
        = s.funded recipient ctx.sourceChainId
          + owedAmt s recipient ctx.sourceChainId total
      ∧ ∀ r c, ¬(r = recipient ∧ c = ctx.sourceChainId) →
          s'.funded r c = s.funded r c) := by
  constructor
  · intro s' h
    cases hp : s.paused with
    | false =>
      rw [twr_not_paused s ctx recipient total false hp] at h
      exact Except.noConfusion h
    | true =>
      by_cases hA : ctx.isXCall = true ∧ s.authed ctx.sourceChainId ctx.sender = true
      · rw [twr_transfer_failed s ctx recipient total hp hA hge] at h
        cases h
        exact ⟨rfl, rfl⟩
      · rw [twr_unauthorized s ctx recipient total false hp hA] at h
        exact Except.noConfusion h
  · intro s' h
    cases hp : s.paused with
    | false =>
      rw [twr_not_paused s ctx recipient total true hp] at h
      exact Except.noConfusion h
    | true =>
      by_cases hA : ctx.isXCall = true ∧ s.authed ctx.sourceChainId ctx.sender = true
      · rw [twr_transfer_ok s ctx recipient total hp hA hge] at h
        cases h
        refine ⟨by simp [owedAmt], ?_⟩
        intro r c hrc
        simp [hrc]
      · rw [twr_unauthorized s ctx recipient total true hp hA] at h
        exact Except.noConfusion h

/-- Claim C3 witness: in a paused, authorized state with an empty ledger and
`total = 100`, both conjuncts of the retry-safety theorem hold. -/
theorem c3_retry_safe_witness :
    (fundDemoState true).funded 5 1 ≤ 100
    ∧ ((∀ s', tryWithdrawRemaining (fundDemoState true) ctxAuthed 5 100 false = .ok s' →
        s' = fundDemoState true
        ∧ owedAmt s' 5 1 100 = owedAmt (fundDemoState true) 5 1 100)
      ∧ (∀ s', tryWithdrawRemaining (fundDemoState true) ctxAuthed 5 100 true = .ok s' →
        s'.funded 5 1 = (fundDemoState true).funded 5 1 + owedAmt (fundDemoState true) 5 1 100
        ∧ ∀ r c, ¬(r = 5 ∧ c = 1) → s'.funded r c = (fundDemoState true).funded r c)) :=
  ⟨by decide, c3_retry_safe (fundDemoState true) ctxAuthed 5 100 (by decide)⟩

/-- Claim C10: authorization is irrevocable — if `authed[chain][addr]` is true
then it is still true after any public operation of `OmniXFund` that does not
revert (the interface can only grant, never revoke). -/
theorem c10_auth_irrevocable (s : FundState) (op : FundOp) (chain addr : Nat)
    (s' : FundState) (hauth : s.authed chain addr = true)
    (hstep : fundStep s op = .ok s') : s'.authed chain addr = true := by
  cases op with
  | tryWithdrawRemaining ctx r total tok =>
    simp only [fundStep] at hstep
    cases hp : s.paused with
    | false =>
      rw [twr_not_paused s ctx r total tok hp] at hstep
      exact Except.noConfusion hstep
    | true =>
      by_cases hA : ctx.isXCall = true ∧ s.authed ctx.sourceChainId ctx.sender = true
      · by_cases hge : s.funded r ctx.sourceChainId ≤ total
        · cases tok with
          | false =>
            rw [twr_transfer_failed s ctx r total hp hA hge] at hstep
            cases hstep; exact hauth
          | true =>
            rw [twr_transfer_ok s ctx r total hp hA hge] at hstep
            cases hstep; exact hauth
        · rw [twr_rewind s ctx r total tok hp hA (Nat.lt_of_not_le hge)] at hstep
          exact Except.noConfusion hstep
      · rw [twr_unauthorized s ctx r total tok hp hA] at hstep
        exact Except.noConfusion hstep
  | authorize ms c a =>
    simp only [fundStep] at hstep
    unfold fundAuthorize at hstep
    by_cases hms : ms ≠ s.owner
    · rw [if_pos hms] at hstep
      exact Except.noConfusion hstep
    · rw [if_neg hms] at hstep
      cases hstep
      by_cases hca : chain = c ∧ addr = a
      · simp [hca]
      · simpa [hca] using hauth
  | pause ms =>
    simp only [fundStep] at hstep
    unfold fundPause at hstep
    by_cases hms : ms ≠ s.owner
    · rw [if_pos hms] at hstep
      exact Except.noConfusion hstep
    · rw [if_neg hms] at hstep
      by_cases hpz : s.paused = true
      · rw [if_pos hpz] at hstep
        exact Except.noConfusion hstep
      · rw [if_neg hpz] at hstep
        cases hstep; exact hauth
  | unpause ms =>
    simp only [fundStep] at hstep
    unfold fundUnpause at hstep
    by_cases hms : ms ≠ s.owner
    · rw [if_pos hms] at hstep
      exact Except.noConfusion hstep
    · rw [if_neg hms] at hstep
      by_cases hpz : s.paused = false
      · rw [if_pos hpz] at hstep
        exact Except.noConfusion hstep
      · rw [if_neg hpz] at hstep
        cases hstep; exact hauth
  | transferOwnership ms n =>
    simp only [fundStep] at hstep
    unfold fundTransferOwnership at hstep
    by_cases hms : ms ≠ s.owner
    · rw [if_pos hms] at hstep
      exact Except.noConfusion hstep
    · rw [if_neg hms] at hstep
      by_cases hn : n = 0
      · rw [if_pos hn] at hstep
        exact Except.noConfusion hstep
      · rw [if_neg hn] at hstep
        cases hstep; exact hauth
  | renounceOwnership ms =>
    simp only [fundStep] at hstep
    unfold fundRenounceOwnership at hstep
    by_cases hms : ms ≠ s.owner
    · rw [if_pos hms] at hstep
      exact Except.noConfusion hstep
    · rw [if_neg hms] at hstep
      cases hstep; exact hauth
  | receiveEth =>
    simp only [fundStep] at hstep
    cases hstep; exact hauth

/-- Claim C10 witness: after the owner authorizes a fresh `(chain, addr)`
pair, a previously authorized pair is still authorized. -/
theorem c10_auth_irrevocable_witness :
    (fundDemoState true).authed 1 2 = true
    ∧ ∃ s', fundStep (fundDemoState true) (.authorize 9 7 8) = .ok s'
      ∧ s'.authed 1 2 = true := by
  constructor
  · rfl
  · refine ⟨_, rfl, ?_⟩
    exact c10_auth_irrevocable (fundDemoState true) (.authorize 9 7 8) 1 2 _ rfl rfl

/-! ## OmniGasExchange (`contracts/core/src/token/OmniGasExchange.sol`)

The exchange's storage plus its external collaborators: the portal fee oracle
(`feeFor`, reached through `xcall`/`feeFor` on the portal) and the conversion
oracle (`FeeOracleV1.toNativeRate(omniChainId())` and
`FeeOracleV1.CONVERSION_RATE_DENOM()`), which are read live at call time and
so appear as state fields fixed for the duration of one call.  Monadic plumbing
is written as explicit matches so that a propagated revert is syntactically an
`.error` bubble. -/

/-- Gas limit passed to `OmniXFund.tryWithdrawRemaining` xcall (line 24). -/
def WITHDRAW_XCALL_GAS : Nat := 100000

/-- Denominator for pct cut (line 29). -/
def PCT_CUT_DENOM : Nat := 1000

/-- Big-endian fixed-width byte encoding of `v` into `n` bytes (the shape of
one ABI word; `n = 32` for a `uint256` or a left-padded `address`). -/
def beBytes : Nat → Nat → List Nat
  | 0, _ => []
  | n + 1, v => v / 256 ^ n :: beBytes n (v % 256 ^ n)

/-- Model of `abi.encodeCall(OmniXFund.tryWithdrawRemaining, (recipient, total))`:
the 4-byte function selector followed by the `address` argument left-padded to
a 32-byte word and the `uint256` argument as a 32-byte word.  The selector (a
Keccak-256 digest prefix) is carried as an explicit parameter; every property
proved below holds for an arbitrary selector. -/
def encodeTryWithdraw (sel : List Nat) (recipient total : Nat) : List Nat :=
  sel ++ (beBytes 32 recipient ++ beBytes 32 total)

/-- Storage of the `OmniGasExchange` contract together with its live-read
oracle environment. -/
structure ExState where
  /-- Address of OmniXFund on Omni. -/
  fund : Nat
  /-- Max amt (in native token) that can be swapped in a single tx. -/
  maxSwap : Nat
  /-- Percentage cut (over `PCT_CUT_DENOM`) taken by this contract. -/
  pctCut : Nat
  /-- Map address to total historical swap requests. -/
  swapped : Nat → Nat
  /-- `PausableUpgradeable` paused flag. -/
  paused : Bool
  /-- `OwnableUpgradeable` owner. -/
  owner : Nat
  /-- External portal fee oracle: `feeFor(omniChainId(), data, gasLimit)`. -/
  feeFor : List Nat → Nat → Nat
  /-- External conversion oracle: `FeeOracleV1.toNativeRate(omniChainId())`. -/
  toNativeRate : Nat
  /-- External conversion oracle: `FeeOracleV1.CONVERSION_RATE_DENOM()`. -/
  conversionRateDenom : Nat

/-- `OmniGasExchange.swapFee`, lines 118–129: quotes the xcall fee using
max-address / max-uint256 placeholder arguments. -/
def swapFee (s : ExState) (sel : List Nat) : Nat :=
  s.feeFor (encodeTryWithdraw sel (2 ^ 160 - 1) (2 ^ 256 - 1)) WITHDRAW_XCALL_GAS

/-- `OmniGasExchange.ethToOmni`, lines 179–182:
`amtETH * oracle.toNativeRate(omniChainId()) / oracle.CONVERSION_RATE_DENOM()`. -/
def ethToOmni (s : ExState) (amtETH : Nat) : Except String Nat :=
  match umul amtETH s.toNativeRate with
  | .error e => .error e
  | .ok x => udiv x s.conversionRateDenom

/-- `OmniGasExchange.omniToEth`, lines 171–174:
`amtOMNI * oracle.CONVERSION_RATE_DENOM() / oracle.toNativeRate(omniChainId())`. -/
def omniToEth (s : ExState) (amtOMNI : Nat) : Except String Nat :=
  match umul amtOMNI s.conversionRateDenom with
  | .error e => .error e
  | .ok x => udiv x s.toNativeRate

/-- `OmniGasExchange.swap`, lines 89–113.  Returns the post-state and the
OMNI amount returned by the function; the terminal `xcall` to the fund (which
sends `(recipient, swapped[recipient])`) is an external call and only its
calldata-relevant effect — the updated `swapped` total — is tracked. -/
def swap (s : ExState) (sel : List Nat) (recipient msgValue : Nat) :
    Except String (ExState × Nat) :=
  if s.paused = true then .error "EnforcedPause" else
  let fee := swapFee s sel
  if msgValue < fee then .error "OmniExchange: insufficient fee" else
  let amtETH := msgValue - fee
  if s.maxSwap < amtETH then .error "OmniExchange: over max" else
  match umul amtETH s.pctCut with
  | .error e => .error e
  | .ok cutNum =>
    let cut := cutNum / PCT_CUT_DENOM
    match usub amtETH cut with
    | .error e => .error e
    | .ok amtETH2 =>
      match ethToOmni s amtETH2 with
      | .error e => .error e
      | .ok amtOMNI =>
        match uadd (s.swapped recipient) amtOMNI with
        | .error e => .error e
        | .ok newSwapped =>
          -- xcall(omniChainId(), fund, ConfLevel.Latest,
          --   abi.encodeCall(tryWithdrawRemaining, (recipient, newSwapped)),
          --   WITHDRAW_XCALL_GAS)  -- external call through the portal
          .ok ({ s with swapped := fun a =>
                  if a = recipient then newSwapped else s.swapped a },
               amtOMNI)

/-- `OmniGasExchange.simSwap`, lines 135–145: the pure simulation returning
`(amount, ok, reason)`. -/
def simSwap (s : ExState) (sel : List Nat) (amtETH0 : Nat) :
    Except String (Nat × Bool × String) :=
  let fee := swapFee s sel
  if amtETH0 < fee then .ok (0, false, "insufficient fee") else
  let amtETH := amtETH0 - fee
  if s.maxSwap < amtETH then .ok (0, false, "over max") else
  match umul amtETH s.pctCut with
  | .error e => .error e
  | .ok cutNum =>
    match usub amtETH (cutNum / PCT_CUT_DENOM) with
    | .error e => .error e
    | .ok amtETH2 =>
      match ethToOmni s amtETH2 with
      | .error e => .error e
      | .ok amtOMNI => .ok (amtOMNI, true, "")

/-- `OmniGasExchange.canSwap`, lines 150–153. -/
def canSwap (s : ExState) (sel : List Nat) (amtETH : Nat) :
    Except String Bool :=
  match simSwap s sel amtETH with
  | .error e => .error e
  | .ok r => .ok r.2.1

/-- `OmniGasExchange.ethNeededFor`, lines 158–166: converts OMNI back to ETH,
undoes the pct cut, then adds the swap fee. -/
def ethNeededFor (s : ExState) (sel : List Nat) (amtOMNI : Nat) :
    Except String Nat :=
  match omniToEth s amtOMNI with
  | .error e => .error e
  | .ok amtETH =>
    match umul amtETH PCT_CUT_DENOM with
    | .error e => .error e
    | .ok num =>
      match usub PCT_CUT_DENOM s.pctCut with
      | .error e => .error e
      | .ok den =>
        match udiv num den with
        | .error e => .error e
        | .ok amtETH2 => uadd amtETH2 (swapFee s sel)

/-- `OmniGasExchange._setPctCut`, lines 213–217. -/
def setPctCutChecked (s : ExState) (pct : Nat) : Except String ExState :=
  if PCT_CUT_DENOM ≤ pct then .error "OmniExchange: over pct cut" else
  .ok { s with pctCut := pct }

/-- `OmniGasExchange._setMaxSwap`, lines 219–223. -/
def setMaxSwapChecked (s : ExState) (max : Nat) : Except String ExState :=
  if max = 0 then .error "OmniExchange: zero max" else
  .ok { s with maxSwap := max }

/-- `OmniGasExchange._setFund`, lines 225–229. -/
def setFundChecked (s : ExState) (fund : Nat) : Except String ExState :=
  if fund = 0 then .error "OmniExchange: zero address" else
  .ok { s with fund := fund }

/-- `OmniGasExchange.InitParams`, lines 62–68. -/
structure ExInitParams where
  fund : Nat
  portal : Nat
  owner : Nat
  maxSwap : Nat
  pctCut : Nat

/-- `OmniGasExchange.initialize`, lines 70–76: runs `_setFund`, `_setMaxSwap`,
`_setPctCut` in order and installs the owner; OpenZeppelin initialization
leaves the contract unpaused and all storage mappings zeroed.  The oracle
environment (external collaborators) is passed alongside. -/
def initializeEx (p : ExInitParams) (feeFor : List Nat → Nat → Nat)
    (rate denom : Nat) : Except String ExState :=
  if p.fund = 0 then .error "OmniExchange: zero address" else
  if p.maxSwap = 0 then .error "OmniExchange: zero max" else
  if PCT_CUT_DENOM ≤ p.pctCut then .error "OmniExchange: over pct cut" else
  .ok { fund := p.fund, maxSwap := p.maxSwap, pctCut := p.pctCut,
        swapped := fun _ => 0, paused := false, owner := p.owner,
        feeFor := feeFor, toNativeRate := rate, conversionRateDenom := denom }

/-- One public state-changing operation of the deployed `OmniGasExchange`. -/
inductive ExOp where
  | swap (sel : List Nat) (recipient msgValue : Nat)
  | pause (msgSender : Nat)
  | unpause (msgSender : Nat)
  | withdraw (msgSender dest : Nat) (transferOk : Bool)
  | setMaxSwap (msgSender max : Nat)
  | setOmniXFund (msgSender fundAddr : Nat)
  | setPctCut (msgSender pct : Nat)
  | transferOwnership (msgSender newOwner : Nat)
  | renounceOwnership (msgSender : Nat)

/-- Dispatch one public operation of `OmniGasExchange` (admin entry points
check `onlyOwner` before delegating to the internal setters). -/
def exStep (s : ExState) : ExOp → Except String ExState
  | .swap sel r v =>
    match swap s sel r v with
    | .error e => .error e
    | .ok pr => .ok pr.1
  | .pause ms =>
    if ms ≠ s.owner then .error "OwnableUnauthorizedAccount" else
    if s.paused = true then .error "EnforcedPause" else
    .ok { s with paused := true }
  | .unpause ms =>
    if ms ≠ s.owner then .error "OwnableUnauthorizedAccount" else
    if s.paused = false then .error "ExpectedPause" else
    .ok { s with paused := false }
  | .withdraw ms _dest tok =>
    if ms ≠ s.owner then .error "OwnableUnauthorizedAccount" else
    -- the ETH balance sweep to `dest` is an external call; balance untracked
    if tok = false then .error "OmniExchange: withdraw failed" else
    .ok s
  | .setMaxSwap ms max =>
    if ms ≠ s.owner then .error "OwnableUnauthorizedAccount" else
    setMaxSwapChecked s max
  | .setOmniXFund ms f =>
    if ms ≠ s.owner then .error "OwnableUnauthorizedAccount" else
    setFundChecked s f
  | .setPctCut ms pct =>
    if ms ≠ s.owner then .error "OwnableUnauthorizedAccount" else
    setPctCutChecked s pct
  | .transferOwnership ms n =>
    if ms ≠ s.owner then .error "OwnableUnauthorizedAccount" else
    if n = 0 then .error "OwnableInvalidOwner" else
    .ok { s with owner := n }
  | .renounceOwnership ms =>
    if ms ≠ s.owner then .error "OwnableUnauthorizedAccount" else
    .ok { s with owner := 0 }


/-! ### Claims C4–C6 and C9 (gas exchange) -/

/-- Arbitrary 4-byte function selector used in concrete evaluations. -/
def exSel : List Nat := [1, 2, 3, 4]

/-- Paused exchange state whose oracle environment would let a 10-wei swap
through: fee 0, generous max, zero cut, 1:1 conversion. -/
def exPausedState : ExState :=
  { fund := 1, maxSwap := 1000, pctCut := 0, swapped := fun _ => 0
    paused := true, owner := 9, feeFor := fun _ _ => 0
    toNativeRate := 1, conversionRateDenom := 1 }

/-- Claim C4 counterexample: `simSwap` has no `whenNotPaused` modifier while
`swap` does, so on a paused contract `simSwap(10)` reports `ok = true` with
amount 10 while `swap` with `msg.value = 10` reverts `EnforcedPause` — the two
do NOT agree for every contract state. -/
theorem c4_counterexample :
    simSwap exPausedState exSel 10 = .ok (10, true, "")
    ∧ swap exPausedState exSel 7 10 = .error "EnforcedPause" :=
  ⟨rfl, rfl⟩

/-- Claim C4 (amended): on a NOT-paused contract state, and provided that
crediting the simulated amount to `swapped[recipient]` does not overflow
uint256, `swap` (paid `msg.value = amt`) and `simSwap(amt)` agree: `simSwap`
returns `ok = true` exactly when `swap` succeeds, and then the OMNI amounts
coincide; `simSwap` returns `ok = false` exactly when `swap` reverts on a
guard, and a revert of `simSwap` itself (checked-arithmetic panic) is
reproduced identically by `swap`. -/
theorem c4_swap_simSwap_agree (s : ExState) (sel : List Nat) (rcpt v : Nat)
    (hp : s.paused = false)
    (hov : ∀ amt r, simSwap s sel v = .ok (amt, true, r) →
      s.swapped rcpt + amt ≤ UMAX) :
    (∀ amt r, simSwap s sel v = .ok (amt, true, r) →
      ∃ s', swap s sel rcpt v = .ok (s', amt))
    ∧ (∀ amt r, simSwap s sel v = .ok (amt, false, r) →
      ∃ e, swap s sel rcpt v = .error e)
    ∧ (∀ e, simSwap s sel v = .error e → swap s sel rcpt v = .error e) := by
  have hpn : ¬ s.paused = true := by simp [hp]
  by_cases hfee : v < swapFee s sel
  · refine ⟨?_, ?_, ?_⟩
    · intro amt r h
      simp only [simSwap, if_pos hfee] at h
      simp at h
    · intro amt r h
      exact ⟨"OmniExchange: insufficient fee",
        by simp only [swap, if_neg hpn, if_pos hfee]⟩
    · intro e h
      simp only [simSwap, if_pos hfee] at h
      exact Except.noConfusion h
  · by_cases hmax : s.maxSwap < v - swapFee s sel
    · refine ⟨?_, ?_, ?_⟩
      · intro amt r h
        simp only [simSwap, if_neg hfee, if_pos hmax] at h
        simp at h
      · intro amt r h
        exact ⟨"OmniExchange: over max",
          by simp only [swap, if_neg hpn, if_neg hfee, if_pos hmax]⟩
      · intro e h
        simp only [simSwap, if_neg hfee, if_pos hmax] at h
        exact Except.noConfusion h
    · cases hm1 : umul (v - swapFee s sel) s.pctCut with
      | error e1 =>
        have hsim : simSwap s sel v = .error e1 := by
          simp only [simSwap, if_neg hfee, if_neg hmax, hm1]
        have hsw : swap s sel rcpt v = .error e1 := by
          simp only [swap, if_neg hpn, if_neg hfee, if_neg hmax, hm1]
        refine ⟨?_, ?_, ?_⟩
        · intro amt r h
          rw [hsim] at h
          exact Except.noConfusion h
        · intro amt r h
          rw [hsim] at h
          exact Except.noConfusion h
        · intro e h
          rw [hsim] at h
          cases h
          exact hsw
      | ok cutNum =>
        cases hm2 : usub (v - swapFee s sel) (cutNum / PCT_CUT_DENOM) with
        | error e2 =>
          have hsim : simSwap s sel v = .error e2 := by
            simp only [simSwap, if_neg hfee, if_neg hmax, hm1, hm2]
          have hsw : swap s sel rcpt v = .error e2 := by
            simp only [swap, if_neg hpn, if_neg hfee, if_neg hmax,
              hm1, hm2]
          refine ⟨?_, ?_, ?_⟩
          · intro amt r h
            rw [hsim] at h
            exact Except.noConfusion h
          · intro amt r h
            rw [hsim] at h
            exact Except.noConfusion h
          · intro e h
            rw [hsim] at h
            cases h
            exact hsw
        | ok amtETH2 =>
          cases hm3 : ethToOmni s amtETH2 with
          | error e3 =>
            have hsim : simSwap s sel v = .error e3 := by
              simp only [simSwap, if_neg hfee, if_neg hmax, hm1, hm2, hm3]
            have hsw : swap s sel rcpt v = .error e3 := by
              simp only [swap, if_neg hpn, if_neg hfee, if_neg hmax,
                hm1, hm2, hm3]
            refine ⟨?_, ?_, ?_⟩
            · intro amt r h
              rw [hsim] at h
              exact Except.noConfusion h
            · intro amt r h
              rw [hsim] at h
              exact Except.noConfusion h
            · intro e h
              rw [hsim] at h
              cases h
              exact hsw
          | ok amtOMNI =>
            have hsim : simSwap s sel v = .ok (amtOMNI, true, "") := by
              simp only [simSwap, if_neg hfee, if_neg hmax, hm1, hm2, hm3]
            refine ⟨?_, ?_, ?_⟩
            · intro amt r h
              rw [hsim] at h
              cases h
              have hb : s.swapped rcpt + amtOMNI ≤ UMAX := hov amtOMNI "" hsim
              refine ⟨{ s with swapped := fun a =>
                if a = rcpt then s.swapped rcpt + amtOMNI else s.swapped a }, ?_⟩
              simp only [swap, if_neg hpn, if_neg hfee, if_neg hmax,
                hm1, hm2, hm3, uadd, if_pos hb]
            · intro amt r h
              rw [hsim] at h
              simp at h
            · intro e h
              rw [hsim] at h
              exact Except.noConfusion h

/-- Unpaused exchange state realising the spec's concrete swap scenario:
constant oracle fee 100 wei, `pctCut = 50` (5 %), rate 3 with denominator 1. -/
def exDemoState : ExState :=
  { fund := 1, maxSwap := 1000, pctCut := 50, swapped := fun _ => 0
    paused := false, owner := 9, feeFor := fun _ _ => 100
    toNativeRate := 3, conversionRateDenom := 1 }

/-- Claim C4 witness: on the (not paused) demo state with `msg.value = 1000`,
the agreement theorem applies; its overflow side condition is discharged by
evaluating `simSwap` to `.ok (2565, true, "")`. -/
theorem c4_swap_simSwap_agree_witness :
    exDemoState.paused = false
    ∧ ((∀ amt r, simSwap exDemoState exSel 1000 = .ok (amt, true, r) →
        ∃ s', swap exDemoState exSel 7 1000 = .ok (s', amt))
      ∧ (∀ amt r, simSwap exDemoState exSel 1000 = .ok (amt, false, r) →
        ∃ e, swap exDemoState exSel 7 1000 = .error e)
      ∧ (∀ e, simSwap exDemoState exSel 1000 = .error e →
        swap exDemoState exSel 7 1000 = .error e)) := by
  refine ⟨rfl, c4_swap_simSwap_agree exDemoState exSel 7 1000 rfl ?_⟩
  intro amt r h
  have h2 : (Except.ok ((2565 : Nat), true, "") : Except String (Nat × Bool × String))
      = .ok (amt, true, r) := h
  cases h2
  decide

/-- Claim C5: a successful `swap` computes its result in the source's exact
order with floor division — fee off the deposit, then the pct cut off the
remainder, then the oracle conversion of what is left:
`((v - fee) - (v - fee)*pctCut/1000) * rate / rateDenom`. -/
theorem c5_swap_formula (s : ExState) (sel : List Nat) (rcpt v : Nat)
    (hp : s.paused = false)
    (hcut : s.pctCut ≤ PCT_CUT_DENOM)
    (hfee : swapFee s sel ≤ v)
    (hmax : v - swapFee s sel ≤ s.maxSwap)
    (hm1 : (v - swapFee s sel) * s.pctCut ≤ UMAX)
    (hm2 : (v - swapFee s sel - (v - swapFee s sel) * s.pctCut / PCT_CUT_DENOM)
      * s.toNativeRate ≤ UMAX)
    (hden : s.conversionRateDenom ≠ 0)
    (hacc : s.swapped rcpt
      + (v - swapFee s sel - (v - swapFee s sel) * s.pctCut / PCT_CUT_DENOM)
        * s.toNativeRate / s.conversionRateDenom ≤ UMAX) :
    ∃ s', swap s sel rcpt v = .ok (s',
      (v - swapFee s sel - (v - swapFee s sel) * s.pctCut / PCT_CUT_DENOM)
        * s.toNativeRate / s.conversionRateDenom) := by
  have hpn : ¬ s.paused = true := by simp [hp]
  have hcutle : (v - swapFee s sel) * s.pctCut / PCT_CUT_DENOM
      ≤ v - swapFee s sel := by
    calc (v - swapFee s sel) * s.pctCut / PCT_CUT_DENOM
        ≤ (v - swapFee s sel) * PCT_CUT_DENOM / PCT_CUT_DENOM :=
          Nat.div_le_div_right (Nat.mul_le_mul_left _ hcut)
      _ = v - swapFee s sel := Nat.mul_div_cancel _ (by decide)
  refine ⟨{ s with swapped := fun a => if a = rcpt then s.swapped rcpt + (v - swapFee s sel - (v - swapFee s sel) * s.pctCut / PCT_CUT_DENOM) * s.toNativeRate / s.conversionRateDenom else s.swapped a }, ?_⟩
  simp only [swap, if_neg hpn, if_neg (Nat.not_lt.mpr hfee),
    if_neg (Nat.not_lt.mpr hmax), umul, if_pos hm1, usub, if_pos hcutle,
    ethToOmni, if_pos hm2, udiv, if_neg hden, uadd, if_pos hacc]

/-- Claim C5 witness: the spec's concrete scenario — `pctCut = 50`, deposit
1000 wei, fee 100 wei — yields net 900, cut 45, and 855 wei converted at the
oracle rate (3/1 here, so 2565 OMNI). -/
theorem c5_swap_formula_witness :
    swapFee exDemoState exSel = 100
    ∧ (1000 - 100 : Nat) = 900
    ∧ (900 * 50 / 1000 : Nat) = 45
    ∧ (900 - 45 : Nat) = 855
    ∧ ∃ s', swap exDemoState exSel 7 1000 = .ok (s', 855 * 3 / 1) := by
  refine ⟨rfl, rfl, rfl, rfl, ?_⟩
  exact c5_swap_formula exDemoState exSel 7 1000 rfl (by decide) (by decide)
    (by decide) (by decide) (by decide) (by decide) (by decide)

/-- Helper: a successful `swap` only rewrites the `swapped` mapping, so in
particular it preserves `pctCut`. -/
theorem swap_preserves_pctCut (s : ExState) (sel : List Nat) (r v : Nat)
    (pr : ExState × Nat) (h : swap s sel r v = .ok pr) :
    pr.1.pctCut = s.pctCut := by
  simp only [swap] at h
  repeat' split at h
  all_goals first
    | exact Except.noConfusion h
    | (cases h; rfl)

/-- Helper: `umul` can only revert with an overflow panic. -/
theorem umul_error_eq (a b : Nat) (e : String) (h : umul a b = .error e) :
    e = "overflow" := by
  unfold umul at h
  split at h
  · exact Except.noConfusion h
  · exact (Except.error.inj h).symm

/-- Claim C9: `pctCut < PCT_CUT_DENOM` is established by `initialize`, is
preserved by every public operation of the exchange, and consequently the
division by `PCT_CUT_DENOM - pctCut` in `ethNeededFor` never raises the
division-by-zero panic (the conversion-oracle division aside, whose rate is
assumed nonzero). -/
theorem c9_pctCut_invariant :
    (∀ p f rate denom s0, initializeEx p f rate denom = .ok s0 →
      s0.pctCut < PCT_CUT_DENOM)
    ∧ (∀ s op s', s.pctCut < PCT_CUT_DENOM → exStep s op = .ok s' →
      s'.pctCut < PCT_CUT_DENOM)
    ∧ (∀ s sel a, s.pctCut < PCT_CUT_DENOM → s.toNativeRate ≠ 0 →
      ethNeededFor s sel a ≠ .error "division by zero") := by
  refine ⟨?_, ?_, ?_⟩
  · intro p f rate denom s0 h
    unfold initializeEx at h
    split at h
    · exact Except.noConfusion h
    split at h
    · exact Except.noConfusion h
    split at h
    · exact Except.noConfusion h
    next hpct =>
    cases h
    exact Nat.lt_of_not_le hpct
  · intro s op s' hlt h
    cases op with
    | swap sel r v =>
      simp only [exStep] at h
      cases hsw : swap s sel r v with
      | error e =>
        rw [hsw] at h
        exact Except.noConfusion h
      | ok pr =>
        rw [hsw] at h
        cases h
        rw [swap_preserves_pctCut s sel r v pr hsw]
        exact hlt
    | pause ms =>
      simp only [exStep] at h
      repeat' split at h
      all_goals first
        | exact Except.noConfusion h
        | (cases h; exact hlt)
    | unpause ms =>
      simp only [exStep] at h
      repeat' split at h
      all_goals first
        | exact Except.noConfusion h
        | (cases h; exact hlt)
    | withdraw ms dest tok =>
      simp only [exStep] at h
      repeat' split at h
      all_goals first
        | exact Except.noConfusion h
        | (cases h; exact hlt)
    | setMaxSwap ms max =>
      simp only [exStep] at h
      split at h
      · exact Except.noConfusion h
      unfold setMaxSwapChecked at h
      split at h
      · exact Except.noConfusion h
      cases h
      exact hlt
    | setOmniXFund ms f =>
      simp only [exStep] at h
      split at h
      · exact Except.noConfusion h
      unfold setFundChecked at h
      split at h
      · exact Except.noConfusion h
      cases h
      exact hlt
    | setPctCut ms pct =>
      simp only [exStep] at h
      split at h
      · exact Except.noConfusion h
      unfold setPctCutChecked at h
      split at h
      · exact Except.noConfusion h
      next hpct =>
      cases h
      exact Nat.lt_of_not_le hpct
    | transferOwnership ms n =>
      simp only [exStep] at h
      repeat' split at h
      all_goals first
        | exact Except.noConfusion h
        | (cases h; exact hlt)
    | renounceOwnership ms =>
      simp only [exStep] at h
      repeat' split at h
      all_goals first
        | exact Except.noConfusion h
        | (cases h; exact hlt)
  · intro s sel a hlt hr heq
    unfold ethNeededFor at heq
    unfold omniToEth at heq
    cases hm1 : umul a s.conversionRateDenom with
    | error e =>
      rw [hm1] at heq
      simp only [] at heq
      have he := umul_error_eq _ _ _ hm1
      rw [Except.error.injEq] at heq
      rw [he] at heq
      exact absurd heq.symm (by decide)
    | ok x =>
      rw [hm1] at heq
      simp only [udiv] at heq
      rw [if_neg hr] at heq
      simp only [] at heq
      cases hm2 : umul (x / s.toNativeRate) PCT_CUT_DENOM with
      | error e =>
        rw [hm2] at heq
        simp only [] at heq
        have he := umul_error_eq _ _ _ hm2
        rw [Except.error.injEq] at heq
        rw [he] at heq
        exact absurd heq.symm (by decide)
      | ok num =>
        rw [hm2] at heq
        have hsub : usub PCT_CUT_DENOM s.pctCut = .ok (PCT_CUT_DENOM - s.pctCut) := by
          unfold usub
          rw [if_pos (Nat.le_of_lt hlt)]
        rw [hsub] at heq
        have hdz : ¬ (PCT_CUT_DENOM - s.pctCut = 0) :=
          Nat.sub_ne_zero_of_lt hlt
        simp only [udiv] at heq
        rw [if_neg hdz] at heq
        simp only [uadd] at heq
        split at heq
        · exact Except.noConfusion heq
        · rw [Except.error.injEq] at heq
          exact absurd heq.symm (by decide)

/-- Claim C9 witness: instantiating all three conjuncts at concrete inputs —
a concrete `initialize` with `pctCut = 50` establishes the bound, a concrete
owner `setPctCut 60` preserves it, and `ethNeededFor` on the demo state does
not raise the division-by-zero panic. -/
theorem c9_pctCut_invariant_witness :
    exDemoState.pctCut < PCT_CUT_DENOM
    ∧ ({ exDemoState with pctCut := 60 } : ExState).pctCut < PCT_CUT_DENOM
    ∧ ethNeededFor exDemoState exSel 30 ≠ .error "division by zero" := by
  refine ⟨?_, ?_, ?_⟩
  · exact c9_pctCut_invariant.1
      { fund := 1, portal := 3, owner := 9, maxSwap := 1000, pctCut := 50 }
      (fun _ _ => 100) 3 1 exDemoState rfl
  · exact c9_pctCut_invariant.2.1 exDemoState (.setPctCut 9 60) _ (by decide) rfl
  · exact c9_pctCut_invariant.2.2 exDemoState exSel 30 (by decide) (by decide)

/-- Byte-wise dominance: `zeroDom d dz` says `dz` has the same length as `d`
and every byte of `dz` that is nonzero is nonzero in `d` too — i.e. `dz` is
obtained from `d` by replacing some bytes with zero bytes.  This is the shape
of calldata relaxation under which the fee oracle is assumed non-increasing
(EVM calldata pricing discounts zero bytes). -/
def zeroDom : List Nat → List Nat → Prop
  | [], [] => True
  | a :: as, b :: bs => (b ≠ 0 → a ≠ 0) ∧ zeroDom as bs
  | _, _ => False

theorem zeroDom_refl (l : List Nat) : zeroDom l l := by
  induction l with
  | nil => trivial
  | cons a as ih => exact ⟨fun h => h, ih⟩

theorem zeroDom_append {a b c d : List Nat} (h1 : zeroDom a b)
    (h2 : zeroDom c d) : zeroDom (a ++ c) (b ++ d) := by
  induction a generalizing b with
  | nil =>
    cases b with
    | nil => exact h2
    | cons y ys => exact (h1 : False).elim
  | cons x xs ih =>
    cases b with
    | nil => exact (h1 : False).elim
    | cons y ys => exact ⟨h1.1, ih h1.2⟩

theorem zeroDom_length : ∀ (a b : List Nat), zeroDom a b → a.length = b.length
  | [], [], _ => rfl
  | _ :: xs, _ :: ys, h => by simp [zeroDom_length xs ys h.2]
  | [], _ :: _, h => (h : False).elim
  | _ :: _, [], h => (h : False).elim

/-- Decomposition of an all-ones byte string value. -/
theorem pow256_succ_sub_one (n : Nat) :
    256 ^ (n + 1) - 1 = 255 * 256 ^ n + (256 ^ n - 1) := by
  have h : 256 ^ (n + 1) = 256 ^ n * 256 := pow_succ 256 n
  have hx : 0 < 256 ^ n := pow_pos (by norm_num) n
  omega

theorem pow256_div (n : Nat) : (256 ^ (n + 1) - 1) / 256 ^ n = 255 := by
  have hx : 0 < 256 ^ n := pow_pos (by norm_num) n
  rw [pow256_succ_sub_one, mul_comm, Nat.mul_add_div hx,
    Nat.div_eq_of_lt (by omega)]

theorem pow256_mod (n : Nat) : (256 ^ (n + 1) - 1) % 256 ^ n = 256 ^ n - 1 := by
  have hx : 0 < 256 ^ n := pow_pos (by norm_num) n
  rw [pow256_succ_sub_one, mul_comm, Nat.mul_add_mod,
    Nat.mod_eq_of_lt (by omega)]

/-- The all-ones `n`-byte word byte-wise dominates every `n`-byte word. -/
theorem zeroDom_beBytes_max (n : Nat) : ∀ t : Nat, t < 256 ^ n →
    zeroDom (beBytes n (256 ^ n - 1)) (beBytes n t) := by
  induction n with
  | zero => intro t ht; trivial
  | succ n ih =>
    intro t ht
    simp only [beBytes, zeroDom]
    refine ⟨fun _ => ?_, ?_⟩
    · rw [pow256_div]
      decide
    · rw [pow256_mod]
      exact ih (t % 256 ^ n) (Nat.mod_lt _ (pow_pos (by norm_num) n))

/-- Leading zero bytes (values below `256 ^ n` encoded into `k + n` bytes)
preserve byte-wise dominance. -/
theorem zeroDom_beBytes_pad (k n a b : Nat) (ha : a < 256 ^ n)
    (hb : b < 256 ^ n) (h : zeroDom (beBytes n a) (beBytes n b)) :
    zeroDom (beBytes (k + n) a) (beBytes (k + n) b) := by
  induction k with
  | zero => simpa using h
  | succ k ih =>
    rw [show k + 1 + n = (k + n) + 1 by omega]
    simp only [beBytes, zeroDom]
    have hmono : (256 : Nat) ^ n ≤ 256 ^ (k + n) :=
      Nat.pow_le_pow_right (by norm_num) (Nat.le_add_left n k)
    have hab : a < 256 ^ (k + n) := lt_of_lt_of_le ha hmono
    have hbb : b < 256 ^ (k + n) := lt_of_lt_of_le hb hmono
    refine ⟨?_, ?_⟩
    · rw [Nat.div_eq_of_lt hbb, Nat.div_eq_of_lt hab]
      exact fun hcon => hcon
    · rw [Nat.mod_eq_of_lt hab, Nat.mod_eq_of_lt hbb]
      exact ih

/-- Claim C6: `swapFee()` quotes the oracle on the calldata built from the
max-width placeholder arguments, and — assuming the oracle's fee does not
increase when calldata bytes are replaced by zero bytes — the fee for the
calldata of ANY concrete `(recipient, total)` pair at the same gas limit is
bounded by `swapFee()`. -/
theorem c6_swapFee_upper_bound (s : ExState) (sel : List Nat) (r t : Nat)
    (hr : r < 2 ^ 160) (ht : t < 2 ^ 256)
    (hmono : ∀ d dz : List Nat, zeroDom d dz →
      s.feeFor dz WITHDRAW_XCALL_GAS ≤ s.feeFor d WITHDRAW_XCALL_GAS) :
    s.feeFor (encodeTryWithdraw sel r t) WITHDRAW_XCALL_GAS ≤ swapFee s sel := by
  have h2560 : (256 : Nat) ^ 20 = 2 ^ 160 := by norm_num
  have h2562 : (256 : Nat) ^ 32 = 2 ^ 256 := by norm_num
  rw [swapFee]
  apply hmono
  simp only [encodeTryWithdraw]
  refine zeroDom_append (zeroDom_refl sel) (zeroDom_append ?_ ?_)
  · rw [show (32 : Nat) = 12 + 20 from rfl]
    apply zeroDom_beBytes_pad 12 20
    · rw [h2560]
      have hp : 0 < (2 : Nat) ^ 160 := pow_pos (by norm_num) 160
      omega
    · rw [h2560]
      exact hr
    · rw [show (2 : Nat) ^ 160 - 1 = 256 ^ 20 - 1 by rw [h2560]]
      exact zeroDom_beBytes_max 20 r (h2560 ▸ hr)
  · rw [show (2 : Nat) ^ 256 - 1 = 256 ^ 32 - 1 by rw [h2562]]
    exact zeroDom_beBytes_max 32 t (h2562 ▸ ht)

/-- Exchange state whose fee oracle charges per calldata byte (a simple
monotone pricing function for the witness). -/
def exC6State : ExState :=
  { fund := 1, maxSwap := 1000, pctCut := 50, swapped := fun _ => 0
    paused := false, owner := 9, feeFor := fun d _ => d.length
    toNativeRate := 3, conversionRateDenom := 1 }

/-- Claim C6 witness: for the concrete pair `(recipient, total) = (3, 5)` and
a per-byte fee oracle, the concrete fee is bounded by `swapFee()`. -/
theorem c6_swapFee_upper_bound_witness :
    (3 : Nat) < 2 ^ 160 ∧ (5 : Nat) < 2 ^ 256
    ∧ exC6State.feeFor (encodeTryWithdraw exSel 3 5) WITHDRAW_XCALL_GAS
      ≤ swapFee exC6State exSel := by
  refine ⟨by decide, by decide, ?_⟩
  exact c6_swapFee_upper_bound exC6State exSel 3 5 (by decide) (by decide)
    (fun d dz h => le_of_eq (zeroDom_length d dz h).symm)

/-! ## Netconf (`lib/netconf/netconf.go`)

`Chain.MarshalJSON`/`Chain.UnmarshalJSON` convert between the `Chain` struct
and the flat `chainJSON` record; the standard-library JSON byte encoding of
the flat record is modelled structurally (the record itself), since `chainJSON`
has only scalar string/number fields whose JSON round-trip is the identity.
The two non-trivial field codecs the Go code calls are modelled faithfully:

* go-ethereum `common.HexToAddress` — best-effort hex decoding (`FromHex` →
  `Hex2Bytes` → `hex.DecodeString`, which returns the bytes decoded before the
  first error) followed by `BytesToAddress` (crop from the left);
* Go `time.Duration.String` and `time.ParseDuration`.

Addresses are 20-byte values carried as `Nat < 2^160`.  `Address.Hex()` is
modelled as lowercase `0x`-prefixed hex: the real function applies EIP-55
checksum letter-casing on top, but hex parsing is case-insensitive, so every
Chain-level (de)serialization property is insensitive to that casing. -/

/-- Value of one hex digit character (mirrors `encoding/hex` digit decoding,
accepting both letter cases). -/
def hexVal (c : Char) : Option Nat :=
  if 48 ≤ c.toNat ∧ c.toNat ≤ 57 then some (c.toNat - 48)
  else if 97 ≤ c.toNat ∧ c.toNat ≤ 102 then some (c.toNat - 87)
  else if 65 ≤ c.toNat ∧ c.toNat ≤ 70 then some (c.toNat - 55)
  else none

/-- `common.Hex2Bytes` via `hex.DecodeString`: decode hex digit pairs,
returning the bytes decoded before the first malformed pair (the error is
discarded by `Hex2Bytes`). -/
def hex2Bytes : List Char → List Nat
  | hi :: lo :: rest =>
    match hexVal hi, hexVal lo with
    | some h, some l => (h * 16 + l) :: hex2Bytes rest
    | _, _ => []
  | _ => []

/-- `common.FromHex`: strip an optional `0x`/`0X` prefix, left-pad odd-length
input with one `0`, then best-effort decode. -/
def fromHex (s : List Char) : List Nat :=
  let s1 := match s with
    | '0' :: 'x' :: rest => rest
    | '0' :: 'X' :: rest => rest
    | _ => s
  let s2 := if s1.length % 2 = 1 then '0' :: s1 else s1
  hex2Bytes s2

/-- Big-endian value of a byte string. -/
def bytesToNat (bs : List Nat) : Nat := bs.foldl (fun acc b => acc * 256 + b) 0

/-- `common.BytesToAddress` (`Address.SetBytes`): if the byte string is longer
than 20 bytes it is cropped from the left; shorter input is left-padded with
zeros (implicit in taking the big-endian value). -/
def bytesToAddress (bs : List Nat) : Nat :=
  bytesToNat (if 20 < bs.length then bs.drop (bs.length - 20) else bs)

/-- `common.HexToAddress`. -/
def hexToAddress (s : List Char) : Nat := bytesToAddress (fromHex s)

/-- Lowercase hex digit character for a value below 16. -/
def hexDigitChar (n : Nat) : Char :=
  if n < 10 then Char.ofNat (48 + n) else Char.ofNat (87 + n)

/-- `Address.Hex()` up to EIP-55 letter-casing: `0x` followed by the 40 hex
digits of the 20 address bytes. -/
def addressHexChars (a : Nat) : List Char :=
  '0' :: 'x' :: (beBytes 20 a).foldr
    (fun b acc => hexDigitChar (b / 16) :: hexDigitChar (b % 16) :: acc) []

theorem hexVal_hexDigitChar : ∀ n < 16, hexVal (hexDigitChar n) = some n := by
  decide

theorem beBytes_length : ∀ (n v : Nat), (beBytes n v).length = n := by
  intro n
  induction n with
  | zero => intro v; rfl
  | succ n ih => intro v; simp [beBytes, ih]

theorem beBytes_bytes_lt : ∀ (n v : Nat), v < 256 ^ n →
    ∀ b ∈ beBytes n v, b < 256 := by
  intro n
  induction n with
  | zero => intro v _ b hb; cases hb
  | succ n ih =>
    intro v hv b hb
    simp only [beBytes, List.mem_cons] at hb
    rcases hb with hb | hb
    · subst hb
      have : v < 256 ^ n * 256 := by rw [← pow_succ]; exact hv
      exact Nat.div_lt_of_lt_mul this
    · exact ih (v % 256 ^ n) (Nat.mod_lt _ (pow_pos (by norm_num) n)) b hb

theorem bytesToNat_foldl : ∀ (n v acc : Nat), v < 256 ^ n →
    (beBytes n v).foldl (fun acc b => acc * 256 + b) acc = acc * 256 ^ n + v := by
  intro n
  induction n with
  | zero =>
    intro v acc hv
    interval_cases v
    simp [beBytes]
  | succ n ih =>
    intro v acc hv
    simp only [beBytes, List.foldl_cons]
    rw [ih (v % 256 ^ n) _ (Nat.mod_lt _ (pow_pos (by norm_num) n))]
    calc (acc * 256 + v / 256 ^ n) * 256 ^ n + v % 256 ^ n
        = acc * (256 ^ n * 256) + (256 ^ n * (v / 256 ^ n) + v % 256 ^ n) := by
          ring
      _ = acc * 256 ^ (n + 1) + v := by rw [Nat.div_add_mod, ← pow_succ]

theorem bytesToNat_beBytes (n v : Nat) (hv : v < 256 ^ n) :
    bytesToNat (beBytes n v) = v := by
  unfold bytesToNat
  rw [bytesToNat_foldl n v 0 hv]
  omega

theorem hex2Bytes_encodes : ∀ bs : List Nat, (∀ b ∈ bs, b < 256) →
    hex2Bytes (bs.foldr
      (fun b acc => hexDigitChar (b / 16) :: hexDigitChar (b % 16) :: acc) [])
      = bs := by
  intro bs
  induction bs with
  | nil => intro _; rfl
  | cons b bs ih =>
    intro hlt
    have hb : b < 256 := hlt b (by simp)
    simp only [List.foldr_cons, hex2Bytes]
    rw [hexVal_hexDigitChar (b / 16) (by omega),
      hexVal_hexDigitChar (b % 16) (by omega)]
    simp only []
    rw [ih (fun x hx => hlt x (by simp [hx]))]
    congr 1
    omega

theorem hexEnc_length : ∀ bs : List Nat,
    (bs.foldr (fun b acc => hexDigitChar (b / 16) :: hexDigitChar (b % 16) :: acc)
      []).length = 2 * bs.length := by
  intro bs
  induction bs with
  | nil => rfl
  | cons b bs ih => simp [ih]; omega

/-- go-ethereum round-trip: parsing the hex rendering of a 160-bit address
recovers the address. -/
theorem hexToAddress_addressHexChars (a : Nat) (ha : a < 2 ^ 160) :
    hexToAddress (addressHexChars a) = a := by
  have ha' : a < 256 ^ 20 := by
    have : (256 : Nat) ^ 20 = 2 ^ 160 := by norm_num
    omega
  unfold hexToAddress addressHexChars fromHex
  simp only []
  rw [hexEnc_length, beBytes_length]
  norm_num
  rw [hex2Bytes_encodes _ (beBytes_bytes_lt 20 a ha')]
  unfold bytesToAddress
  rw [beBytes_length]
  norm_num
  exact bytesToNat_beBytes 20 a ha'

/-! ### Go `time.Duration` string codec

`Chain.UnmarshalJSON` calls `time.ParseDuration` and `Chain.MarshalJSON` calls
`Duration.String()`; both are modelled faithfully below on `List Char`.
A duration is an `int64` count of nanoseconds, modelled as `Int` with the
`[-2^63, 2^63)` range carried as hypotheses where relevant.

One deliberate deviation, noted here once: Go's `ParseDuration` computes the
fractional contribution as `uint64(float64(f) * (float64(unit) / scale))` with
`scale` a `float64` power of ten counting the consumed fraction digits.  We
model it as the integer quotient `f * unit / scale` with `scale : Nat`.  On
every string `Duration.String()` produces (fraction digits only ever follow
the `s`, `ms`, `µs` units, at most 9/6/3 digits), `unit / scale` is an exact
power of ten and `f * (unit / scale) < 2^53`, so the float computation is
exact and equals the integer quotient. -/

/-- Decimal digit character for a value below 10. -/
def digitChar (n : Nat) : Char := Char.ofNat (48 + n)

/-- Decimal digit test (Go's `'0' <= c && c <= '9'`). -/
def isDigit (c : Char) : Bool := 48 ≤ c.toNat && c.toNat ≤ 57

/-- Decimal digits of `n` (most significant first) prepended to `acc`; the
shape of Go's `fmtInt` buffer loop.  Produces nothing for `n = 0`. -/
def natDigitsGo (n : Nat) (acc : List Char) : List Char :=
  if h : n = 0 then acc
  else natDigitsGo (n / 10) (digitChar (n % 10) :: acc)
termination_by n
decreasing_by exact Nat.div_lt_self (Nat.pos_of_ne_zero h) (by decide)

/-- Go `fmtInt`: decimal rendering, `"0"` for zero. -/
def fmtInt (n : Nat) : List Char :=
  if n = 0 then ['0'] else natDigitsGo n []

/-- Drop trailing `'0'` characters. -/
def stripTrailing (ds : List Char) : List Char :=
  (ds.reverse.dropWhile (fun c => c == '0')).reverse

/-- Left-pad a digit string with zeros to length `k`. -/
def padZeros (k : Nat) (ds : List Char) : List Char :=
  List.replicate (k - ds.length) '0' ++ ds

/-- Go `fmtFrac`: the fraction part (`'.'` plus the `prec` digits of
`u mod 10^prec` with trailing zeros omitted; nothing if the fraction is zero)
together with `u / 10^prec`. -/
def fmtFrac (u prec : Nat) : List Char × Nat :=
  let frac := u % 10 ^ prec
  if frac = 0 then ([], u / 10 ^ prec)
  else ('.' :: stripTrailing (padZeros prec (natDigitsGo frac [])), u / 10 ^ prec)

/-- Core of Go `Duration.String()` on the absolute nanosecond count. -/
def durationCore (u : Nat) : List Char :=
  if u < 1000000000 then
    -- Special case: if duration is smaller than a second, use smaller units,
    -- like 1.2ms
    if u = 0 then ['0', 's']
    else
      let pu : Nat × List Char :=
        if u < 1000 then (0, ['n', 's'])
        else if u < 1000000 then (3, ['µ', 's'])
        else (6, ['m', 's'])
      let fw := fmtFrac u pu.1
      fmtInt fw.2 ++ fw.1 ++ pu.2
  else
    let fw := fmtFrac u 9
    let secs := fmtInt (fw.2 % 60) ++ fw.1 ++ ['s']
    let w2 := fw.2 / 60
    if w2 > 0 then
      let mins := fmtInt (w2 % 60) ++ ['m'] ++ secs
      let w3 := w2 / 60
      if w3 > 0 then fmtInt w3 ++ ['h'] ++ mins else mins
    else secs

/-- Go `Duration.String()`: sign plus the core rendering of the absolute
value (`uint64` negation of the minimum `int64` is exact, hence `natAbs`). -/
def durationString (d : Int) : List Char :=
  if d < 0 then '-' :: durationCore d.natAbs else durationCore d.natAbs

/-- Go `leadingInt`: consume leading decimal digits into `x`, erroring on
`uint64`-range overflow past `2^63`. -/
def leadingInt : List Char → Nat → Option (Nat × List Char)
  | [], x => some (x, [])
  | c :: rest, x =>
    if isDigit c then
      if x > 2 ^ 63 / 10 then none
      else
        let y := x * 10 + (c.toNat - 48)
        if y > 2 ^ 63 then none
        else leadingInt rest y
    else some (x, c :: rest)

/-- Go `leadingFraction`: consume fraction digits into `x` scaling `scale` by
ten per digit, silently stopping accumulation (but still consuming) once the
value would overflow. -/
def leadingFraction : List Char → Nat → Nat → Bool → Nat × Nat × List Char
  | [], x, scale, _ => (x, scale, [])
  | c :: rest, x, scale, overflow =>
    if isDigit c then
      if overflow then leadingFraction rest x scale true
      else if x > (2 ^ 63 - 1) / 10 then leadingFraction rest x scale true
      else
        let y := x * 10 + (c.toNat - 48)
        if y > 2 ^ 63 then leadingFraction rest x scale true
        else leadingFraction rest y (scale * 10) false
    else (x, scale, c :: rest)

/-- Go `unitMap`. -/
def unitValue : List Char → Option Nat
  | ['n', 's'] => some 1
  | ['u', 's'] => some 1000
  | ['µ', 's'] => some 1000
  | ['μ', 's'] => some 1000
  | ['m', 's'] => some 1000000
  | ['s'] => some 1000000000
  | ['m'] => some 60000000000
  | ['h'] => some 3600000000000
  | _ => none

/-- The `for s != ""` loop of Go `ParseDuration`, accumulating the summed
value `d ≤ 2^63`.  Each iteration consumes at least the (nonempty) unit
token, so the caller's fuel of `length + 1` never runs out on a parse the Go
loop would finish. -/
def parseGroups : Nat → List Char → Nat → Option Nat
  | 0, _, _ => none
  | _ + 1, [], d => some d
  | fuel + 1, c :: s0, d =>
    -- The next character must be [0-9.]
    if ¬ (c = '.' ∨ isDigit c = true) then none
    else
      match leadingInt (c :: s0) 0 with
      | none => none
      | some (v, s1) =>
        let pre := s1.length != (c :: s0).length
        let fr : Nat × Nat × List Char × Bool :=
          match s1 with
          | c1 :: rest1 =>
            if c1 = '.' then
              let fsr := leadingFraction rest1 0 1 false
              (fsr.1, fsr.2.1, fsr.2.2, fsr.2.2.length != rest1.length)
            else (0, 1, s1, false)
          | [] => (0, 1, s1, false)
        if pre = false ∧ fr.2.2.2 = false then none
        else
          let unitChars := fr.2.2.1.takeWhile
            (fun ch => !(ch == '.' || isDigit ch))
          if unitChars.length = 0 then none
          else
            match unitValue unitChars with
            | none => none
            | some unit =>
              if v > 2 ^ 63 / unit then none
              else
                let v1 := v * unit
                if fr.1 > 0 then
                  let v2 := v1 + fr.1 * unit / fr.2.1
                  if v2 > 2 ^ 63 then none
                  else if d + v2 > 2 ^ 63 then none
                  else parseGroups fuel (fr.2.2.1.drop unitChars.length) (d + v2)
                else
                  if d + v1 > 2 ^ 63 then none
                  else parseGroups fuel (fr.2.2.1.drop unitChars.length) (d + v1)

/-- Go `time.ParseDuration`. -/
def parseDuration (s : List Char) : Option Int :=
  let ns : Bool × List Char :=
    match s with
    | c :: rest =>
      if c = '-' then (true, rest)
      else if c = '+' then (false, rest) else (false, s)
    | [] => (false, s)
  if ns.2 = ['0'] then some 0
  else if ns.2 = [] then none
  else
    match parseGroups (ns.2.length + 1) ns.2 0 with
    | none => none
    | some d =>
      if ns.1 then some (-(d : Int))
      else if d > 2 ^ 63 - 1 then none
      else some (d : Int)

/-- Accumulating decimal value of a digit string (the shape shared by
`leadingInt` and `leadingFraction`). -/
def digitsAcc (x : Nat) (ds : List Char) : Nat :=
  ds.foldl (fun a c => a * 10 + (c.toNat - 48)) x

theorem digitChar_toNat : ∀ n < 10, (digitChar n).toNat = 48 + n := by decide

theorem isDigit_digitChar : ∀ n < 10, isDigit (digitChar n) = true := by decide

/-- One-step unfolding of `natDigitsGo` as a plain conditional. -/
theorem natDigitsGo_eq (n : Nat) (acc : List Char) :
    natDigitsGo n acc =
      if n = 0 then acc
      else natDigitsGo (n / 10) (digitChar (n % 10) :: acc) := by
  rw [natDigitsGo]
  split
  · rfl
  · rfl

theorem natDigitsGo_append (n : Nat) : ∀ acc₁ acc₂ : List Char,
    natDigitsGo n (acc₁ ++ acc₂) = natDigitsGo n acc₁ ++ acc₂ := by
  induction n using Nat.strong_induction_on with
  | _ n ih =>
    intro acc₁ acc₂
    by_cases h : n = 0
    · rw [natDigitsGo_eq, if_pos h, natDigitsGo_eq, if_pos h]
    · rw [natDigitsGo_eq, if_neg h,
        show digitChar (n % 10) :: (acc₁ ++ acc₂)
          = (digitChar (n % 10) :: acc₁) ++ acc₂ from rfl,
        ih (n / 10) (Nat.div_lt_self (Nat.pos_of_ne_zero h) (by decide))]
      conv_rhs => rw [natDigitsGo_eq, if_neg h]

theorem natDigitsGo_all_digits (n : Nat) :
    ∀ c ∈ natDigitsGo n [], isDigit c = true := by
  induction n using Nat.strong_induction_on with
  | _ n ih =>
    intro c hc
    by_cases h : n = 0
    · rw [natDigitsGo_eq, if_pos h] at hc
      cases hc
    · rw [natDigitsGo_eq, if_neg h,
        show digitChar (n % 10) :: ([] : List Char) = [] ++ [digitChar (n % 10)] from rfl,
        natDigitsGo_append] at hc
      rcases List.mem_append.mp hc with hc | hc
      · exact ih (n / 10) (Nat.div_lt_self (Nat.pos_of_ne_zero h) (by decide)) c hc
      · rcases List.mem_singleton.mp hc with rfl
        exact isDigit_digitChar (n % 10) (Nat.mod_lt _ (by decide))

theorem digitsAcc_natDigitsGo (n : Nat) : ∀ x : Nat,
    digitsAcc x (natDigitsGo n []) = x * 10 ^ (natDigitsGo n []).length + n := by
  induction n using Nat.strong_induction_on with
  | _ n ih =>
    intro x
    by_cases h : n = 0
    · rw [natDigitsGo_eq, if_pos h, h]
      simp [digitsAcc]
    · have hlt := Nat.div_lt_self (Nat.pos_of_ne_zero h) (show 1 < 10 by decide)
      rw [natDigitsGo_eq, if_neg h,
        show digitChar (n % 10) :: ([] : List Char) = [] ++ [digitChar (n % 10)] from rfl,
        natDigitsGo_append]
      unfold digitsAcc
      rw [List.foldl_append]
      have hval : digitsAcc x (natDigitsGo (n / 10) [])
          = x * 10 ^ (natDigitsGo (n / 10) []).length + n / 10 := ih (n / 10) hlt x
      unfold digitsAcc at hval
      rw [hval]
      simp only [List.foldl_cons, List.foldl_nil, List.length_append,
        List.length_singleton]
      rw [digitChar_toNat (n % 10) (Nat.mod_lt _ (by decide))]
      have hmod : 48 + n % 10 - 48 = n % 10 := by omega
      rw [hmod]
      calc (x * 10 ^ (natDigitsGo (n / 10) []).length + n / 10) * 10 + n % 10
          = x * (10 ^ (natDigitsGo (n / 10) []).length * 10)
            + (10 * (n / 10) + n % 10) := by ring
        _ = x * 10 ^ ((natDigitsGo (n / 10) []).length + 1) + n := by
            rw [Nat.div_add_mod, ← pow_succ]

theorem natDigitsGo_length_le (n : Nat) : ∀ k, n < 10 ^ k →
    (natDigitsGo n []).length ≤ k := by
  induction n using Nat.strong_induction_on with
  | _ n ih =>
    intro k h
    by_cases h0 : n = 0
    · rw [natDigitsGo_eq, if_pos h0]
      exact Nat.zero_le k
    · rw [natDigitsGo_eq, if_neg h0,
        show digitChar (n % 10) :: ([] : List Char) = [] ++ [digitChar (n % 10)] from rfl,
        natDigitsGo_append]
      cases k with
      | zero =>
        refine absurd h ?_
        simp only [pow_zero]
        omega
      | succ k =>
        have hdiv : n / 10 < 10 ^ k := by
          rw [Nat.div_lt_iff_lt_mul (by decide)]
          rw [pow_succ] at h
          exact h
        have := ih (n / 10)
          (Nat.div_lt_self (Nat.pos_of_ne_zero h0) (by decide)) k hdiv
        simp only [List.length_append, List.length_singleton]
        omega

/-- The list does not start with a decimal digit. -/
def headNotDigit : List Char → Prop
  | [] => True
  | c :: _ => isDigit c = false

theorem natDigitsGo_ne_nil (n : Nat) (h : n ≠ 0) : natDigitsGo n [] ≠ [] := by
  rw [natDigitsGo_eq, if_neg h,
    show digitChar (n % 10) :: ([] : List Char) = [] ++ [digitChar (n % 10)] from rfl,
    natDigitsGo_append]
  simp

theorem fmtInt_ne_nil (n : Nat) : fmtInt n ≠ [] := by
  unfold fmtInt
  split
  · simp
  · next h => exact natDigitsGo_ne_nil n h

theorem fmtInt_all_digits (n : Nat) : ∀ c ∈ fmtInt n, isDigit c = true := by
  unfold fmtInt
  split
  · intro c hc
    rcases List.mem_singleton.mp hc with rfl
    decide
  · exact natDigitsGo_all_digits n

theorem digitsAcc_fmtInt (n x : Nat) :
    digitsAcc x (fmtInt n) = x * 10 ^ (fmtInt n).length + n := by
  unfold fmtInt
  split
  · next h =>
    subst h
    have h0 : ('0' : Char).toNat - 48 = 0 := by decide
    simp [digitsAcc, h0]
  · exact digitsAcc_natDigitsGo n x

theorem digitsAcc_cons (x : Nat) (c : Char) (ds : List Char) :
    digitsAcc x (c :: ds) = digitsAcc (x * 10 + (c.toNat - 48)) ds := rfl

theorem digitsAcc_append (x : Nat) (a b : List Char) :
    digitsAcc x (a ++ b) = digitsAcc (digitsAcc x a) b := by
  unfold digitsAcc
  exact List.foldl_append _ _ _ _

theorem digitsAcc_le : ∀ (ds : List Char) (x : Nat), x ≤ digitsAcc x ds := by
  intro ds
  induction ds with
  | nil => intro x; exact le_refl x
  | cons c ds ih =>
    intro x
    rw [digitsAcc_cons]
    calc x ≤ x * 10 + (c.toNat - 48) := by omega
      _ ≤ digitsAcc (x * 10 + (c.toNat - 48)) ds := ih _

theorem digitsAcc_replicate_zero : ∀ (k x : Nat),
    digitsAcc x (List.replicate k '0') = x * 10 ^ k := by
  intro k
  induction k with
  | zero => intro x; simp [digitsAcc]
  | succ k ih =>
    intro x
    rw [List.replicate_succ, digitsAcc_cons]
    have h0 : ('0' : Char).toNat - 48 = 0 := by decide
    rw [h0, Nat.add_zero, ih]
    ring

/-- `leadingInt` consumes exactly a digit block whose value stays in range. -/
theorem leadingInt_digits : ∀ (ds rest : List Char) (x : Nat),
    (∀ c ∈ ds, isDigit c = true) → headNotDigit rest →
    digitsAcc x ds ≤ 2 ^ 63 →
    leadingInt (ds ++ rest) x = some (digitsAcc x ds, rest) := by
  intro ds
  induction ds with
  | nil =>
    intro rest x _ hrest _
    cases rest with
    | nil => rfl
    | cons c r =>
      have hc : isDigit c = false := hrest
      simp only [List.nil_append, leadingInt, hc]
      rfl
  | cons c ds ih =>
    intro rest x hds hrest hb
    have hc : isDigit c = true := hds c (by simp)
    rw [digitsAcc_cons] at hb
    have hx10 : x * 10 + (c.toNat - 48) ≤ 2 ^ 63 :=
      le_trans (digitsAcc_le ds _) hb
    have hxdiv : ¬ x > 2 ^ 63 / 10 := by
      rw [not_lt]
      rw [Nat.le_div_iff_mul_le (by decide)]
      omega
    simp only [List.cons_append, leadingInt, hc, if_true, hxdiv, if_false,
      List.append_eq,
      if_neg (show ¬ x * 10 + (c.toNat - 48) > 2 ^ 63 by omega)]
    rw [ih rest (x * 10 + (c.toNat - 48)) (fun d hd => hds d (by simp [hd]))
      hrest hb]
    rw [digitsAcc_cons]

/-- `leadingFraction` consumes exactly a digit block, scaling by ten per
digit, with no overflow when the value is at most `10^9`. -/
theorem leadingFraction_digits : ∀ (ds rest : List Char) (x sc : Nat),
    (∀ c ∈ ds, isDigit c = true) → headNotDigit rest →
    digitsAcc x ds ≤ 10 ^ 9 →
    leadingFraction (ds ++ rest) x sc false
      = (digitsAcc x ds, sc * 10 ^ ds.length, rest) := by
  intro ds
  induction ds with
  | nil =>
    intro rest x sc _ hrest _
    cases rest with
    | nil => simp [leadingFraction, digitsAcc]
    | cons c r =>
      have hc : isDigit c = false := hrest
      simp [leadingFraction, hc, digitsAcc]
  | cons c ds ih =>
    intro rest x sc hds hrest hb
    have hc : isDigit c = true := hds c (by simp)
    rw [digitsAcc_cons] at hb
    have hx10 : x * 10 + (c.toNat - 48) ≤ 10 ^ 9 :=
      le_trans (digitsAcc_le ds _) hb
    have hxdiv : ¬ x > (2 ^ 63 - 1) / 10 := by
      have : x * 10 ≤ 10 ^ 9 := by omega
      rw [not_lt, Nat.le_div_iff_mul_le (by decide)]
      omega
    simp only [List.cons_append, leadingFraction, hc, if_true, if_false,
      Bool.false_eq_true, hxdiv, List.append_eq,
      if_neg (show ¬ x * 10 + (c.toNat - 48) > 2 ^ 63 by omega)]
    rw [ih rest (x * 10 + (c.toNat - 48)) (sc * 10)
      (fun d hd => hds d (by simp [hd])) hrest hb]
    rw [digitsAcc_cons]
    simp only [List.length_cons]
    rw [mul_assoc, ← pow_succ']

theorem stripTrailing_decomp (ds : List Char) :
    ∃ z, ds = stripTrailing ds ++ List.replicate z '0' := by
  refine ⟨(ds.reverse.takeWhile (fun c => c == '0')).length, ?_⟩
  unfold stripTrailing
  have hrepl : (ds.reverse.takeWhile (fun c => c == '0')).reverse
      = List.replicate (ds.reverse.takeWhile (fun c => c == '0')).length '0' := by
    rw [List.eq_replicate_iff]
    refine ⟨List.length_reverse _, ?_⟩
    intro b hb
    rw [List.mem_reverse] at hb
    have := List.mem_takeWhile_imp hb
    simpa using this
  conv_lhs => rw [← List.reverse_reverse ds,
    ← List.takeWhile_append_dropWhile (p := fun c => c == '0') (l := ds.reverse)]
  rw [List.reverse_append, hrepl]

theorem padZeros_length (k : Nat) (ds : List Char) (h : ds.length ≤ k) :
    (padZeros k ds).length = k := by
  unfold padZeros
  simp [List.length_append, List.length_replicate]
  omega

theorem padZeros_value (k : Nat) (ds : List Char) :
    digitsAcc 0 (padZeros k ds) = digitsAcc 0 ds := by
  unfold padZeros
  rw [digitsAcc_append, digitsAcc_replicate_zero]
  simp

theorem fmtFrac_zero (u prec : Nat) (h : u % 10 ^ prec = 0) :
    fmtFrac u prec = ([], u / 10 ^ prec) := by
  unfold fmtFrac
  rw [if_pos h]

/-- Shape and value of the fraction string emitted by `fmtFrac` when the
fraction is nonzero: a dot followed by at least one digit, `z` trailing zeros
stripped, recovering the fraction as `value * 10 ^ z`. -/
theorem fmtFrac_spec (u prec : Nat) (hne : u % 10 ^ prec ≠ 0) :
    ∃ fds z, (fmtFrac u prec).1 = '.' :: fds
      ∧ (fmtFrac u prec).2 = u / 10 ^ prec
      ∧ (∀ c ∈ fds, isDigit c = true)
      ∧ fds ≠ []
      ∧ fds.length + z = prec
      ∧ digitsAcc 0 fds * 10 ^ z = u % 10 ^ prec := by
  have hfraclt : u % 10 ^ prec < 10 ^ prec :=
    Nat.mod_lt _ (pow_pos (by norm_num) prec)
  have hdlen : (natDigitsGo (u % 10 ^ prec) []).length ≤ prec :=
    natDigitsGo_length_le _ prec hfraclt
  have hpadlen : (padZeros prec (natDigitsGo (u % 10 ^ prec) [])).length = prec :=
    padZeros_length prec _ hdlen
  have hpadval : digitsAcc 0 (padZeros prec (natDigitsGo (u % 10 ^ prec) []))
      = u % 10 ^ prec := by
    rw [padZeros_value, digitsAcc_natDigitsGo]
    simp
  obtain ⟨z, hdecomp⟩ :=
    stripTrailing_decomp (padZeros prec (natDigitsGo (u % 10 ^ prec) []))
  have hval : digitsAcc 0 (stripTrailing (padZeros prec (natDigitsGo (u % 10 ^ prec) [])))
      * 10 ^ z = u % 10 ^ prec := by
    conv_rhs => rw [← hpadval, hdecomp]
    rw [digitsAcc_append, digitsAcc_replicate_zero]
  refine ⟨stripTrailing (padZeros prec (natDigitsGo (u % 10 ^ prec) [])), z,
    ?_, ?_, ?_, ?_, ?_, hval⟩
  · unfold fmtFrac
    rw [if_neg hne]
  · unfold fmtFrac
    rw [if_neg hne]
  · intro c hc
    have hmem : c ∈ padZeros prec (natDigitsGo (u % 10 ^ prec) []) := by
      rw [hdecomp]
      exact List.mem_append_left _ hc
    unfold padZeros at hmem
    rcases List.mem_append.mp hmem with h | h
    · rcases List.eq_of_mem_replicate h with rfl
      decide
    · exact natDigitsGo_all_digits _ c h
  · intro hnil
    rw [hnil] at hval
    rw [show digitsAcc 0 ([] : List Char) = 0 from rfl] at hval
    simp at hval
    exact hne hval.symm
  · have := congrArg List.length hdecomp
    rw [hpadlen, List.length_append, List.length_replicate] at this
    omega

/-- The list is empty or starts with a decimal digit. -/
def headDigitOrNil : List Char → Prop
  | [] => True
  | c :: _ => isDigit c = true

theorem takeWhile_append_stop (p : Char → Bool) : ∀ (a b : List Char),
    (∀ c ∈ a, p c = true) →
    (match b with | [] => True | c :: _ => p c = false) →
    (a ++ b).takeWhile p = a := by
  intro a
  induction a with
  | nil =>
    intro b _ hb
    cases b with
    | nil => rfl
    | cons c r =>
      simp only [List.nil_append, List.takeWhile_cons]
      rw [hb]
      rfl
  | cons a0 as ih =>
    intro b ha hb
    simp only [List.cons_append, List.takeWhile_cons, ha a0 (by simp)]
    rw [if_pos trivial, ih b (fun c hc => ha c (by simp [hc])) hb]

/-- Parsing one digits-plus-unit group (no fraction part): Go's loop consumes
it and adds `v * unit`. -/
theorem parseGroups_group_int (fuel v unit d : Nat) (unitChars rest : List Char)
    (hu : unitValue unitChars = some unit)
    (hunit : 1 ≤ unit)
    (hud : ∀ ch ∈ unitChars, (ch == '.' || isDigit ch) = false)
    (hne : unitChars ≠ [])
    (hrest : headDigitOrNil rest)
    (hv : v * unit ≤ 2 ^ 63)
    (hd : d + v * unit ≤ 2 ^ 63) :
    parseGroups (fuel + 1) (fmtInt v ++ (unitChars ++ rest)) d
      = parseGroups fuel rest (d + v * unit) := by
  obtain ⟨c, ds, hfmt⟩ := List.exists_cons_of_ne_nil (fmtInt_ne_nil v)
  obtain ⟨u0, us, huc⟩ := List.exists_cons_of_ne_nil hne
  have hcdig : isDigit c = true := fmtInt_all_digits v c (by rw [hfmt]; simp)
  have hu0 : (u0 == '.' || isDigit u0) = false := hud u0 (by rw [huc]; simp)
  have hu0dot : ¬ u0 = '.' := by
    intro hcon
    subst hcon
    simp at hu0
  have hvle : v ≤ 2 ^ 63 := by
    calc v = v * 1 := (mul_one v).symm
      _ ≤ v * unit := Nat.mul_le_mul_left v hunit
      _ ≤ 2 ^ 63 := hv
  have hval0 : digitsAcc 0 (fmtInt v) = v := by
    rw [digitsAcc_fmtInt]
    simp
  have hli : leadingInt (fmtInt v ++ (unitChars ++ rest)) 0
      = some (v, unitChars ++ rest) := by
    have := leadingInt_digits (fmtInt v) (unitChars ++ rest) 0
      (fmtInt_all_digits v)
      (by rw [huc]
          show isDigit u0 = false
          simp at hu0
          exact hu0.2)
      (by rw [hval0]; exact hvle)
    rw [hval0] at this
    exact this
  rw [hfmt, List.cons_append] at hli ⊢
  simp only [parseGroups]
  rw [if_neg (by simp [hcdig])]
  simp only [hli]
  rw [huc]
  simp only [List.cons_append]
  rw [if_neg hu0dot]
  simp only []
  rw [if_neg (by
    intro hcon
    have h1 := hcon.1
    rw [bne_eq_false_iff_eq] at h1
    simp only [List.length_cons, List.length_append] at h1
    omega)]
  rw [show ((u0 :: (us ++ rest)).takeWhile (fun ch => !(ch == '.' || isDigit ch)))
      = u0 :: us from by
    rw [show u0 :: (us ++ rest) = (u0 :: us) ++ rest from rfl]
    refine takeWhile_append_stop _ (u0 :: us) rest ?_ ?_
    · intro ch hch
      rw [hud ch (by rw [huc]; exact hch)]
      rfl
    · cases rest with
      | nil => trivial
      | cons r0 rs =>
        have : isDigit r0 = true := hrest
        simp [this]]
  rw [if_neg (by simp)]
  rw [show unitValue (u0 :: us) = some unit from by rw [← huc]; exact hu]
  simp only []
  rw [if_neg (by
    rw [not_lt]
    exact (Nat.le_div_iff_mul_le (by omega)).mpr hv)]
  rw [if_neg (by omega)]
  rw [if_neg (by omega)]
  rw [show (u0 :: (us ++ rest)).drop (u0 :: us).length = rest from by
    rw [show u0 :: (us ++ rest) = (u0 :: us) ++ rest from rfl]
    exact List.drop_left _ _]

/-- Parsing one group carrying an optional fraction whose unit is the
matching power of ten (`ns`/`µs`/`ms`/`s` with 0/3/6/9 fraction digits):
Go's loop consumes it and adds exactly `w`. -/
theorem parseGroups_group_frac (fuel w prec d : Nat)
    (unitChars rest : List Char)
    (hu : unitValue unitChars = some (10 ^ prec))
    (hud : ∀ ch ∈ unitChars, (ch == '.' || isDigit ch) = false)
    (hne : unitChars ≠ [])
    (hrest : headDigitOrNil rest)
    (hprec : prec ≤ 9)
    (hw : w ≤ 2 ^ 63)
    (hd : d + w ≤ 2 ^ 63) :
    parseGroups (fuel + 1)
      (fmtInt (w / 10 ^ prec) ++ ((fmtFrac w prec).1 ++ (unitChars ++ rest))) d
      = parseGroups fuel rest (d + w) := by
  by_cases hfz : w % 10 ^ prec = 0
  · rw [fmtFrac_zero w prec hfz]
    simp only [List.nil_append]
    have hveq : w / 10 ^ prec * 10 ^ prec = w :=
      Nat.div_mul_cancel (Nat.dvd_of_mod_eq_zero hfz)
    have := parseGroups_group_int fuel (w / 10 ^ prec) (10 ^ prec) d
      unitChars rest hu (Nat.one_le_pow prec 10 (by norm_num)) hud hne hrest
      (by rw [hveq]; exact hw) (by rw [hveq]; exact hd)
    rw [hveq] at this
    exact this
  · obtain ⟨fds, z, hfdseq, hw2, hfdig, hfne, hlenz, hfval⟩ :=
      fmtFrac_spec w prec hfz
    obtain ⟨c, ds, hfmt⟩ := List.exists_cons_of_ne_nil (fmtInt_ne_nil (w / 10 ^ prec))
    obtain ⟨u0, us, huc⟩ := List.exists_cons_of_ne_nil hne
    have hcdig : isDigit c = true :=
      fmtInt_all_digits (w / 10 ^ prec) c (by rw [hfmt]; simp)
    have hu0 : (u0 == '.' || isDigit u0) = false := hud u0 (by rw [huc]; simp)
    have hu0d : isDigit u0 = false := by
      simp at hu0
      exact hu0.2
    have hf9 : digitsAcc 0 fds ≤ 10 ^ 9 := by
      have h1 : digitsAcc 0 fds ≤ digitsAcc 0 fds * 10 ^ z := by
        calc digitsAcc 0 fds = digitsAcc 0 fds * 1 := (mul_one _).symm
          _ ≤ digitsAcc 0 fds * 10 ^ z :=
            Nat.mul_le_mul_left _ (Nat.one_le_pow z 10 (by norm_num))
      have h2 : w % 10 ^ prec < 10 ^ prec :=
        Nat.mod_lt _ (pow_pos (by norm_num) prec)
      have h3 : (10 : Nat) ^ prec ≤ 10 ^ 9 :=
        Nat.pow_le_pow_right (by norm_num) hprec
      omega
    have hfpos : 0 < digitsAcc 0 fds := by
      rcases Nat.eq_zero_or_pos (digitsAcc 0 fds) with h | h
      · rw [h, zero_mul] at hfval
        exact absurd hfval.symm hfz
      · exact h
    have hvle : w / 10 ^ prec ≤ 2 ^ 63 :=
      le_trans (Nat.div_le_self _ _) hw
    have hval0 : digitsAcc 0 (fmtInt (w / 10 ^ prec)) = w / 10 ^ prec := by
      rw [digitsAcc_fmtInt]
      simp
    have hli : leadingInt
        (fmtInt (w / 10 ^ prec) ++ ('.' :: (fds ++ (unitChars ++ rest)))) 0
        = some (w / 10 ^ prec, '.' :: (fds ++ (unitChars ++ rest))) := by
      have := leadingInt_digits (fmtInt (w / 10 ^ prec))
        ('.' :: (fds ++ (unitChars ++ rest))) 0
        (fmtInt_all_digits _)
        (show isDigit '.' = false by decide)
        (by rw [hval0]; exact hvle)
      rw [hval0] at this
      exact this
    have hlf : leadingFraction (fds ++ (unitChars ++ rest)) 0 1 false
        = (digitsAcc 0 fds, 1 * 10 ^ fds.length, unitChars ++ rest) := by
      exact leadingFraction_digits fds (unitChars ++ rest) 0 1 hfdig
        (by rw [huc]; exact hu0d) hf9
    have hdivfrac : digitsAcc 0 fds * 10 ^ prec / (1 * 10 ^ fds.length)
        = w % 10 ^ prec := by
      conv_lhs => rw [one_mul,
        show (10 : Nat) ^ prec = 10 ^ fds.length * 10 ^ z by
          rw [← pow_add, hlenz]]
      rw [show digitsAcc 0 fds * (10 ^ fds.length * 10 ^ z)
          = digitsAcc 0 fds * 10 ^ z * 10 ^ fds.length from by ring]
      rw [Nat.mul_div_cancel _ (pow_pos (by norm_num) fds.length)]
      exact hfval
    have harith : w / 10 ^ prec * 10 ^ prec
        + digitsAcc 0 fds * 10 ^ prec / (1 * 10 ^ fds.length) = w := by
      rw [hdivfrac, mul_comm]
      exact Nat.div_add_mod w (10 ^ prec)
    rw [hfdseq, hfmt]
    simp only [List.cons_append]
    rw [hfmt] at hli
    simp only [List.cons_append] at hli
    simp only [parseGroups]
    rw [if_neg (by simp [hcdig])]
    simp only [hli]
    rw [if_neg (by
      intro hcon
      have h1 := hcon.1
      rw [bne_eq_false_iff_eq] at h1
      simp only [List.length_cons, List.length_append] at h1
      omega)]
    rw [if_pos trivial]
    simp only [hlf]
    rw [huc]
    rw [show ((u0 :: us) ++ rest).takeWhile (fun ch => !(ch == '.' || isDigit ch))
        = u0 :: us from by
      refine takeWhile_append_stop _ (u0 :: us) rest ?_ ?_
      · intro ch hch
        rw [hud ch (by rw [huc]; exact hch)]
        rfl
      · cases rest with
        | nil => trivial
        | cons r0 rs =>
          have : isDigit r0 = true := hrest
          simp [this]]
    rw [if_neg (by simp)]
    rw [show unitValue (u0 :: us) = some (10 ^ prec) from by rw [← huc]; exact hu]
    simp only []
    rw [if_neg (by
      rw [not_lt]
      refine (Nat.le_div_iff_mul_le (pow_pos (by norm_num) prec)).mpr ?_
      exact le_trans (Nat.div_mul_le_self w (10 ^ prec)) hw)]
    rw [if_pos hfpos]
    rw [harith]
    rw [if_neg (by omega)]
    rw [if_neg (by omega)]
    rw [show ((u0 :: us) ++ rest).drop (u0 :: us).length = rest from
      List.drop_left _ _]

theorem fmtFrac_snd (u p : Nat) : (fmtFrac u p).2 = u / 10 ^ p := by
  simp only [fmtFrac]
  split <;> rfl

theorem fmtFrac_fst_congr (a b p : Nat) (h : a % 10 ^ p = b % 10 ^ p) :
    (fmtFrac a p).1 = (fmtFrac b p).1 := by
  unfold fmtFrac
  rw [apply_ite Prod.fst, apply_ite Prod.fst]
  rw [h]

theorem fmtInt_length_pos (n : Nat) : 0 < (fmtInt n).length :=
  List.length_pos.mpr (fmtInt_ne_nil n)

theorem headDigitOrNil_fmtInt (x : Nat) (r : List Char) :
    headDigitOrNil (fmtInt x ++ r) := by
  obtain ⟨c, ds, h⟩ := List.exists_cons_of_ne_nil (fmtInt_ne_nil x)
  have hc : isDigit c = true := fmtInt_all_digits x c (by rw [h]; simp)
  rw [h]
  exact hc

/-- Parsing the core rendering of `u ≤ 2^63` nanoseconds recovers `u`, for any
fuel at least the string length (Go's loop needs one iteration per group and
every group is at least two characters long). -/
theorem parseGroups_durationCore (u : Nat) (hu : u ≤ 2 ^ 63) :
    ∀ fuel, (durationCore u).length ≤ fuel →
    parseGroups (fuel + 1) (durationCore u) 0 = some u := by
  intro fuel hfuel
  by_cases h9 : u < 1000000000
  · by_cases h0 : u = 0
    · -- "0s" parses like the degenerate seconds group of value 0
      subst h0
      have hshape : durationCore 0
          = fmtInt (0 / 10 ^ 9) ++ ((fmtFrac 0 9).1 ++ (['s'] ++ [])) := by
        decide
      rw [hshape] at hfuel ⊢
      rw [parseGroups_group_frac fuel 0 9 0 ['s'] [] (by decide) (by decide)
        (by decide) trivial (by decide) (by omega) (by omega)]
      obtain ⟨m, rfl⟩ : ∃ m, fuel = m + 1 := by
        refine ⟨fuel - 1, ?_⟩
        have := fmtInt_length_pos (0 / 10 ^ 9)
        simp only [List.length_append] at hfuel
        omega
      simp only [parseGroups]
    · -- one fractional group with unit ns, µs or ms
      have hone : ∀ prec : Nat, ∀ unitChars : List Char,
          unitValue unitChars = some (10 ^ prec) →
          (∀ ch ∈ unitChars, (ch == '.' || isDigit ch) = false) →
          unitChars ≠ [] → prec ≤ 9 →
          durationCore u
            = fmtInt (u / 10 ^ prec) ++ ((fmtFrac u prec).1 ++ (unitChars ++ [])) →
          parseGroups (fuel + 1) (durationCore u) 0 = some u := by
        intro prec unitChars hu1 hu2 hu3 hu4 hshape
        rw [hshape] at hfuel ⊢
        rw [parseGroups_group_frac fuel u prec 0 unitChars [] hu1 hu2 hu3
          trivial hu4 hu (by omega)]
        obtain ⟨m, rfl⟩ : ∃ m, fuel = m + 1 := by
          refine ⟨fuel - 1, ?_⟩
          have := fmtInt_length_pos (u / 10 ^ prec)
          simp only [List.length_append] at hfuel
          omega
        simp only [parseGroups, Nat.zero_add]
      by_cases h3 : u < 1000
      · refine hone 0 ['n', 's'] (by decide) (by decide) (by decide) (by decide) ?_
        unfold durationCore
        rw [if_pos h9, if_neg h0]
        simp only [if_pos h3]
        rw [show (fmtFrac u (0, ['n', 's']).1).2 = u / 10 ^ 0 from fmtFrac_snd u 0]
        simp [List.append_assoc]
      · by_cases h6 : u < 1000000
        · refine hone 3 ['µ', 's'] (by decide) (by decide) (by decide) (by decide) ?_
          unfold durationCore
          rw [if_pos h9, if_neg h0]
          simp only [if_neg h3, if_pos h6]
          rw [show (fmtFrac u (3, ['µ', 's']).1).2 = u / 10 ^ 3 from fmtFrac_snd u 3]
          simp [List.append_assoc]
        · refine hone 6 ['m', 's'] (by decide) (by decide) (by decide) (by decide) ?_
          unfold durationCore
          rw [if_pos h9, if_neg h0]
          simp only [if_neg h3, if_neg h6]
          rw [show (fmtFrac u (6, ['m', 's']).1).2 = u / 10 ^ 6 from fmtFrac_snd u 6]
          simp [List.append_assoc]
  · -- u ≥ 1e9: a seconds group, possibly preceded by minutes and hours groups
    have hfi : fmtInt ((u % 10 ^ 9 + u / 10 ^ 9 % 60 * 10 ^ 9) / 10 ^ 9)
        = fmtInt (u / 10 ^ 9 % 60) := by
      congr 1
      omega
    have hff : (fmtFrac (u % 10 ^ 9 + u / 10 ^ 9 % 60 * 10 ^ 9) 9).1
        = (fmtFrac u 9).1 := by
      refine fmtFrac_fst_congr _ _ _ ?_
      omega
    have hsecstep : ∀ (m acc : Nat),
        acc + (u % 10 ^ 9 + u / 10 ^ 9 % 60 * 10 ^ 9) ≤ 2 ^ 63 →
        parseGroups (m + 1)
          (fmtInt (u / 10 ^ 9 % 60) ++ ((fmtFrac u 9).1 ++ (['s'] ++ []))) acc
        = parseGroups m [] (acc + (u % 10 ^ 9 + u / 10 ^ 9 % 60 * 10 ^ 9)) := by
      intro m acc hacc
      rw [← hfi, ← hff]
      exact parseGroups_group_frac m (u % 10 ^ 9 + u / 10 ^ 9 % 60 * 10 ^ 9) 9
        acc ['s'] [] (by decide) (by decide) (by decide) trivial (by decide)
        (by omega) hacc
    by_cases hm : u / 10 ^ 9 / 60 > 0
    · by_cases hh : u / 10 ^ 9 / 60 / 60 > 0
      · -- hours, minutes and seconds groups
        have hshape : durationCore u
            = fmtInt (u / 10 ^ 9 / 60 / 60)
              ++ (['h'] ++ (fmtInt (u / 10 ^ 9 / 60 % 60)
                ++ (['m'] ++ (fmtInt (u / 10 ^ 9 % 60)
                  ++ ((fmtFrac u 9).1 ++ (['s'] ++ [])))))) := by
          simp only [durationCore, fmtFrac_snd]
          rw [if_neg h9, if_pos hm, if_pos hh]
          simp [List.append_assoc]
        rw [hshape] at hfuel ⊢
        have hl1 := fmtInt_length_pos (u / 10 ^ 9 / 60 / 60)
        have hl2 := fmtInt_length_pos (u / 10 ^ 9 / 60 % 60)
        have hl3 := fmtInt_length_pos (u / 10 ^ 9 % 60)
        simp only [List.length_append, List.length_cons, List.length_nil]
          at hfuel
        rw [parseGroups_group_int fuel (u / 10 ^ 9 / 60 / 60) 3600000000000 0
          ['h'] _ (by decide) (by decide) (by decide) (by decide)
          (headDigitOrNil_fmtInt _ _) (by omega) (by omega)]
        obtain ⟨m1, rfl⟩ : ∃ m1, fuel = m1 + 1 := ⟨fuel - 1, by omega⟩
        rw [parseGroups_group_int m1 (u / 10 ^ 9 / 60 % 60) 60000000000
          (0 + u / 10 ^ 9 / 60 / 60 * 3600000000000)
          ['m'] _ (by decide) (by decide) (by decide) (by decide)
          (headDigitOrNil_fmtInt _ _) (by omega) (by omega)]
        obtain ⟨m2, rfl⟩ : ∃ m2, m1 = m2 + 1 := ⟨m1 - 1, by omega⟩
        rw [hsecstep m2 _ (by omega)]
        obtain ⟨m3, rfl⟩ : ∃ m3, m2 = m3 + 1 := ⟨m2 - 1, by omega⟩
        simp only [parseGroups, Option.some.injEq]
        omega
      · -- minutes and seconds groups
        have hshape : durationCore u
            = fmtInt (u / 10 ^ 9 / 60 % 60)
              ++ (['m'] ++ (fmtInt (u / 10 ^ 9 % 60)
                ++ ((fmtFrac u 9).1 ++ (['s'] ++ [])))) := by
          simp only [durationCore, fmtFrac_snd]
          rw [if_neg h9, if_pos hm, if_neg hh]
          simp [List.append_assoc]
        rw [hshape] at hfuel ⊢
        have hl2 := fmtInt_length_pos (u / 10 ^ 9 / 60 % 60)
        have hl3 := fmtInt_length_pos (u / 10 ^ 9 % 60)
        simp only [List.length_append, List.length_cons, List.length_nil]
          at hfuel
        rw [parseGroups_group_int fuel (u / 10 ^ 9 / 60 % 60) 60000000000 0
          ['m'] _ (by decide) (by decide) (by decide) (by decide)
          (headDigitOrNil_fmtInt _ _) (by omega) (by omega)]
        obtain ⟨m1, rfl⟩ : ∃ m1, fuel = m1 + 1 := ⟨fuel - 1, by omega⟩
        rw [hsecstep m1 _ (by omega)]
        obtain ⟨m2, rfl⟩ : ∃ m2, m1 = m2 + 1 := ⟨m1 - 1, by omega⟩
        simp only [parseGroups, Option.some.injEq]
        omega
    · -- a single seconds group
      have hshape : durationCore u
          = fmtInt (u / 10 ^ 9 % 60)
            ++ ((fmtFrac u 9).1 ++ (['s'] ++ [])) := by
        simp only [durationCore, fmtFrac_snd]
        rw [if_neg h9, if_neg hm]
        simp [List.append_assoc]
      rw [hshape] at hfuel ⊢
      have hl3 := fmtInt_length_pos (u / 10 ^ 9 % 60)
      simp only [List.length_append, List.length_cons, List.length_nil]
        at hfuel
      rw [hsecstep fuel 0 (by omega)]
      obtain ⟨m1, rfl⟩ : ∃ m1, fuel = m1 + 1 := ⟨fuel - 1, by omega⟩
      simp only [parseGroups, Option.some.injEq]
      omega

/-- Every core rendering is a digit block followed by a nonempty remainder. -/
theorem durationCore_parts (u : Nat) :
    ∃ x R, durationCore u = fmtInt x ++ R ∧ R ≠ [] := by
  by_cases h9 : u < 1000000000
  · by_cases h0 : u = 0
    · subst h0
      exact ⟨0, ['s'], by decide, by decide⟩
    · by_cases h3 : u < 1000
      · refine ⟨(fmtFrac u 0).2, (fmtFrac u 0).1 ++ ['n', 's'], ?_, by simp⟩
        unfold durationCore
        rw [if_pos h9, if_neg h0]
        simp only [if_pos h3]
        simp [List.append_assoc]
      · by_cases h6 : u < 1000000
        · refine ⟨(fmtFrac u 3).2, (fmtFrac u 3).1 ++ ['µ', 's'], ?_, by simp⟩
          unfold durationCore
          rw [if_pos h9, if_neg h0]
          simp only [if_neg h3, if_pos h6]
          simp [List.append_assoc]
        · refine ⟨(fmtFrac u 6).2, (fmtFrac u 6).1 ++ ['m', 's'], ?_, by simp⟩
          unfold durationCore
          rw [if_pos h9, if_neg h0]
          simp only [if_neg h3, if_neg h6]
          simp [List.append_assoc]
  · by_cases hm : u / 10 ^ 9 / 60 > 0
    · by_cases hh : u / 10 ^ 9 / 60 / 60 > 0
      · refine ⟨u / 10 ^ 9 / 60 / 60,
          ['h'] ++ (fmtInt (u / 10 ^ 9 / 60 % 60) ++ (['m']
            ++ (fmtInt (u / 10 ^ 9 % 60) ++ ((fmtFrac u 9).1 ++ ['s'])))),
          ?_, by simp⟩
        simp only [durationCore, fmtFrac_snd]
        rw [if_neg h9, if_pos hm, if_pos hh]
        simp [List.append_assoc]
      · refine ⟨u / 10 ^ 9 / 60 % 60,
          ['m'] ++ (fmtInt (u / 10 ^ 9 % 60) ++ ((fmtFrac u 9).1 ++ ['s'])),
          ?_, by simp⟩
        simp only [durationCore, fmtFrac_snd]
        rw [if_neg h9, if_pos hm, if_neg hh]
        simp [List.append_assoc]
    · refine ⟨u / 10 ^ 9 % 60, (fmtFrac u 9).1 ++ ['s'], ?_, by simp⟩
      simp only [durationCore, fmtFrac_snd]
      rw [if_neg h9, if_neg hm]
      simp [List.append_assoc]

/-- Round-trip of the Go duration codec: parsing the rendering of any
`int64`-ranged duration recovers it exactly. -/
theorem parseDuration_durationString (d : Int)
    (hlo : -(2 ^ 63) ≤ d) (hhi : d < 2 ^ 63) :
    parseDuration (durationString d) = some d := by
  have hu : d.natAbs ≤ 2 ^ 63 := by omega
  obtain ⟨x, R, hxR, hRne⟩ := durationCore_parts d.natAbs
  obtain ⟨c, ds, hfmt⟩ := List.exists_cons_of_ne_nil (fmtInt_ne_nil x)
  have hcd : isDigit c = true := fmtInt_all_digits x c (by rw [hfmt]; simp)
  have hcore : durationCore d.natAbs = c :: (ds ++ R) := by
    rw [hxR, hfmt]
    rfl
  have hne0 : c :: (ds ++ R) ≠ ['0'] := by
    intro hcon
    injection hcon with h1 h2
    rcases List.append_eq_nil.mp h2 with ⟨_, h4⟩
    exact hRne h4
  have hnenil : c :: (ds ++ R) ≠ ([] : List Char) := by simp
  have hcdash : ¬ c = '-' := by
    intro hc
    subst hc
    exact absurd hcd (by decide)
  have hcplus : ¬ c = '+' := by
    intro hc
    subst hc
    exact absurd hcd (by decide)
  have hparse := parseGroups_durationCore d.natAbs hu
    (durationCore d.natAbs).length (le_refl _)
  rw [hcore] at hparse
  unfold parseDuration durationString
  by_cases hneg : d < 0
  · rw [if_pos hneg, hcore]
    simp only [reduceIte]
    rw [if_neg hne0, if_neg hnenil, hparse]
    simp only [reduceIte]
    congr 1
    omega
  · rw [if_neg hneg, hcore]
    simp only [if_neg hcdash, if_neg hcplus]
    rw [if_neg hne0, if_neg hnenil, hparse]
    simp only [reduceIte]
    rw [if_neg (show ¬ d.natAbs > 2 ^ 63 - 1 by omega)]
    rw [if_neg (show ¬ (false = true) by simp)]
    simp only [Option.some.injEq]
    omega

/-! ### `Chain` JSON (de)serialization -/

/-- String-level wrappers for the codecs. -/
def durationStringS (d : Int) : String := ⟨durationString d⟩

def parseDurationS (s : String) : Option Int := parseDuration s.data

def addressHexS (a : Nat) : String := ⟨addressHexChars a⟩

def hexToAddressS (s : String) : Nat := hexToAddress s.data

/-- `netconf.Chain` (netconf.go lines 168–176).  `PortalAddress` is the
20-byte address value; `BlockPeriod` is a `time.Duration` (int64 count of
nanoseconds). -/
structure Chain where
  ID : Nat
  Name : String
  PortalAddress : Nat
  DeployHeight : Nat
  BlockPeriod : Int
  FinalizationStrat : String

/-- `netconf.chainJSON` (lines 216–224): the flat JSON view of a chain.  Its
fields are plain strings and numbers, so the standard-library JSON byte
round-trip on it is the identity and the record itself stands for the
serialized object. -/
structure ChainJSON where
  id : Nat
  name : String
  rpcurl : String
  portal_address : String
  deploy_height : Nat
  block_period : String
  finalization_start : String

/-- `Chain.MarshalJSON` (lines 256–277): render the portal address as hex but
send the empty string for the zero address, and render the block period with
`Duration.String()`. -/
def marshalChain (c : Chain) : ChainJSON :=
  let portalAddr := if c.PortalAddress = 0 then "" else addressHexS c.PortalAddress
  { id := c.ID
    name := c.Name
    rpcurl := ""
    portal_address := portalAddr
    deploy_height := c.DeployHeight
    block_period := durationStringS c.BlockPeriod
    finalization_start := c.FinalizationStrat }

/-- `Chain.UnmarshalJSON` (lines 227–253): `time.ParseDuration` failure is an
error ("parse block period"); a non-empty portal address string is decoded
best-effort with `common.HexToAddress`, which never fails. -/
def unmarshalChain (cj : ChainJSON) : Except String Chain :=
  match parseDurationS cj.block_period with
  | none => .error "parse block period"
  | some blockPeriod =>
    let portalAddr := if cj.portal_address ≠ "" then hexToAddressS cj.portal_address else 0
    .ok { ID := cj.id
          Name := cj.name
          PortalAddress := portalAddr
          DeployHeight := cj.deploy_height
          BlockPeriod := blockPeriod
          FinalizationStrat := cj.finalization_start }

/-! ### Claims C7 and C8 -/

/-- Chain JSON entry with a well-formed duration but an unparsable
(non-hex) portal address string. -/
def cjBadHex : ChainJSON :=
  { id := 1, name := "x", rpcurl := "", portal_address := "0xzz"
    deploy_height := 0, block_period := "1s", finalization_start := "finalized" }

/-- Claim C7 counterexample: deserializing a chain whose `portal_address`
string is not parsable hex does NOT fail — `common.HexToAddress` silently
decodes the valid prefix (here: nothing), yielding the zero address. -/
theorem c7_counterexample :
    unmarshalChain cjBadHex = .ok
      { ID := 1, Name := "x", PortalAddress := 0, DeployHeight := 0
        BlockPeriod := 1000000000, FinalizationStrat := "finalized" } := rfl

/-- Claim C7 (amended): deserializing a per-chain configuration entry fails
exactly when the block-period duration string is malformed; the portal
address string never causes a failure (it is decoded best-effort, silently
yielding whatever prefix parses — the zero address for fully invalid hex). -/
theorem c7_unmarshal_error_iff (cj : ChainJSON) :
    (∃ e, unmarshalChain cj = .error e) ↔ parseDurationS cj.block_period = none := by
  cases h : parseDurationS cj.block_period with
  | none =>
    simp only [unmarshalChain, h]
    constructor
    · intro _
      trivial
    · intro _
      exact ⟨_, rfl⟩
  | some bp =>
    simp only [unmarshalChain, h]
    constructor
    · intro ⟨e, he⟩
      exact Except.noConfusion he
    · intro hcon
      exact Option.noConfusion hcon

/-- Chain JSON entry with a malformed duration string. -/
def cjBadDur : ChainJSON :=
  { id := 1, name := "x", rpcurl := "", portal_address := ""
    deploy_height := 0, block_period := "abc", finalization_start := "finalized" }

/-- Claim C7 witness: a malformed duration string is rejected. -/
theorem c7_unmarshal_error_iff_witness :
    parseDurationS cjBadDur.block_period = none
    ∧ ∃ e, unmarshalChain cjBadDur = .error e :=
  ⟨rfl, (c7_unmarshal_error_iff cjBadDur).mpr rfl⟩

/-- Claim C8: serializing a `Chain` (portal address in 20-byte range, block
period in int64 range) and deserializing yields the identical structure; a
zero portal address serializes to the empty string, a nonzero one to its
(non-empty) hex rendering, so re-serializing reproduces the same string. -/
theorem c8_chain_roundtrip (c : Chain)
    (hportal : c.PortalAddress < 2 ^ 160)
    (hlo : -(2 ^ 63) ≤ c.BlockPeriod) (hhi : c.BlockPeriod < 2 ^ 63) :
    unmarshalChain (marshalChain c) = .ok c
    ∧ (c.PortalAddress = 0 → (marshalChain c).portal_address = "")
    ∧ (c.PortalAddress ≠ 0 →
        (marshalChain c).portal_address = addressHexS c.PortalAddress
        ∧ (marshalChain c).portal_address ≠ "") := by
  have hdur : parseDurationS (durationStringS c.BlockPeriod) = some c.BlockPeriod := by
    unfold parseDurationS durationStringS
    exact parseDuration_durationString c.BlockPeriod hlo hhi
  have hhexne : addressHexS c.PortalAddress ≠ "" := by
    intro hcon
    have := congrArg String.data hcon
    simp only [addressHexS, addressHexChars] at this
    exact List.noConfusion this
  refine ⟨?_, ?_, ?_⟩
  · by_cases hz : c.PortalAddress = 0
    · simp only [marshalChain, unmarshalChain, if_pos hz, hdur]
      rw [if_neg (show ¬ ("" ≠ "") by simp)]
      rw [← hz]
    · simp only [marshalChain, unmarshalChain, if_neg hz, hdur]
      rw [if_pos (by simpa using hhexne)]
      rw [show hexToAddressS (addressHexS c.PortalAddress) = c.PortalAddress from
        hexToAddress_addressHexChars c.PortalAddress hportal]
  · intro hz
    simp [marshalChain, hz]
  · intro hz
    constructor
    · simp [marshalChain, hz]
    · simp only [marshalChain, if_neg hz]
      exact hhexne

/-- Concrete chain used to instantiate the round-trip, exercising both a
nonzero portal address and a fractional-second block period (1.5s). -/
def chainDemo : Chain :=
  { ID := 5, Name := "omni", PortalAddress := 57005, DeployHeight := 11
    BlockPeriod := 1500000000, FinalizationStrat := "finalized" }

/-- Claim C8 witness: the demo chain round-trips. -/
theorem c8_chain_roundtrip_witness :
    chainDemo.PortalAddress < 2 ^ 160
    ∧ (unmarshalChain (marshalChain chainDemo) = .ok chainDemo
      ∧ (chainDemo.PortalAddress = 0 → (marshalChain chainDemo).portal_address = "")
      ∧ (chainDemo.PortalAddress ≠ 0 →
          (marshalChain chainDemo).portal_address = addressHexS chainDemo.PortalAddress
          ∧ (marshalChain chainDemo).portal_address ≠ "")) :=
  ⟨by decide, c8_chain_roundtrip chainDemo (by decide) (by decide) (by decide)⟩
